import Mathlib

set_option linter.unusedVariables false

/-! Verification development for the Scale Colorizr audio engine core
(`src/lib.rs` and `src/filter.rs`): the fixed-capacity voice pool with
oldest-first stealing, the sample-accurate block-splitting event scheduler,
the per-voice filter bank with its Nyquist safety guard, the delta pass,
and the standalone biquad filter unit. Machine `f32` arithmetic is embedded
over `ℚ`; the external transcendental helpers (exponential, square root,
note-to-frequency conversion, envelope smoothing, SVF coefficient
computation) are parameters of the embedding, so every theorem holds for an
arbitrary choice of them. -/

/-- Number of voice slots (`NUM_VOICES` in `lib.rs`). -/
def NUM_VOICES : Nat := 128

/-- Number of filter bands per voice (`NUM_FILTERS` in `lib.rs`). -/
def NUM_FILTERS : Nat := 8

/-- Maximum sub-block length (`MAX_BLOCK_SIZE` in `lib.rs`). -/
def MAX_BLOCK_SIZE : Nat := 64

/-- A stereo sample (`f32x2`), embedded as a pair of rationals. -/
abbrev Sample := ℚ × ℚ

/-- `f32x2::splat`. -/
def splat (x : ℚ) : Sample := (x, x)

/-- Filter response selected by `GenericSVF::set_bell` or `set_notch`. -/
inductive SVFMode
  | bell
  | notch
deriving DecidableEq

/-- Configuration parameters last written into a `GenericSVF` (a notch takes no
gain argument; its `gain` field is recorded as `0`). -/
structure SVFCfg where
  mode : SVFMode
  freq : ℚ
  q : ℚ
  gain : ℚ
deriving DecidableEq

/-- Modelled from the spec: `cozy_util::filter::svf::GenericSVF` is external to this
repository. Per spec §3 and §4.1 a Filter Unit stores coefficients computed purely
from sample rate, center frequency, Q and gain, plus two feedback state registers,
and is constructed in an identity (pass-through) configuration. We record the
configuration parameters themselves (`cfg = none` meaning the identity default) and
the two state registers, one per stereo lane. -/
structure GenericSVF where
  sample_rate : ℚ
  cfg : Option SVFCfg
  ic1 : Sample
  ic2 : Sample
deriving DecidableEq

/-- Prenormalized two-pole coefficients, as the spec describes them. -/
structure Coeffs where
  b0 : ℚ
  b1 : ℚ
  b2 : ℚ
  a1 : ℚ
  a2 : ℚ
deriving DecidableEq

/-- Modelled from the spec: nih_plug's `SmoothingStyle`, restricted to the styles
the engine uses (`Exponential(time_ms)`, and the inert style of `Smoother::none()`). -/
inductive SmootherStyle
  | off
  | exponential (time_ms : ℚ)
deriving DecidableEq

/-- Modelled from the spec: nih_plug's `Smoother<f32>` amplitude envelope.
`current` is the value `previous_value()` reports and `target` the value
`set_target` installs; the numeric smoothing step itself is abstracted into
`Primitives.env_advance`. -/
structure Smoother where
  style : SmootherStyle
  current : ℚ
  target : ℚ
deriving DecidableEq

/-- Modelled from the spec: the transcendental and external scalar functions the
engine calls (`f32::exp`, `f32::sqrt`, nih_plug's note-to-frequency conversions,
nih_plug's envelope smoothing, and the coefficient computation inside
`GenericSVF`), none of which are sources of this repository. The embedding is
parameterized by them. `note_to_freq` models both `util::midi_note_to_freq` (u8
input) and `util::f32_midi_note_to_freq`, the former being the latter restricted
to integer notes. `env_advance style current target n` returns the `n` per-sample
values written by `Smoother::next_block` together with the smoother's new current
value. -/
structure Primitives where
  exp_q : ℚ → ℚ
  sqrt_q : ℚ → ℚ
  note_to_freq : ℚ → ℚ
  env_advance : SmootherStyle → ℚ → ℚ → Nat → List ℚ × ℚ
  svf_coeffs : ℚ → Option SVFCfg → Coeffs

/-- The `Voice` struct of `lib.rs`. -/
structure Voice where
  id : Int
  channel : Nat
  note : Nat
  frequency : ℚ
  internal_voice_id : Nat
  velocity_sqrt : ℚ
  filters : List GenericSVF
  releasing : Bool
  amp_envelope : Smoother
deriving DecidableEq

/-- The `FilterMode` enum of `lib.rs`. -/
inductive FilterMode
  | peak
  | notch
deriving DecidableEq

/-- The parameter values `ScaleColorizr::process` reads during one call
(`ScaleColorizrParams`), with the smoothed band gain abstracted as a function
`gain_at` of the absolute sample index and the band width represented by its
modulated normalized value. -/
structure Params where
  gain_at : Nat → ℚ
  attack : ℚ
  release : ℚ
  band_width_normalized : ℚ
  delta : Bool
  safety_switch : Bool
  voice_count : Nat
  filter_mode : FilterMode

/-- The audio-thread state of `ScaleColorizr` relevant to voice processing. -/
structure EngineState where
  voices : List (Option Voice)
  next_internal_voice_id : Nat
deriving DecidableEq

/-- An outbound `NoteEvent::VoiceTerminated` notification. -/
structure TermEvent where
  timing : Nat
  voice_id : Int
  channel : Nat
  note : Nat
deriving DecidableEq

/-- Inbound host events (`NoteEvent`), restricted to the variants the engine
handles; `other` stands for any ignored variant, keeping only its timing. -/
inductive NEvent
  | noteOn (timing : Nat) (voice_id : Option Int) (channel note : Nat) (velocity : ℚ)
  | noteOff (timing : Nat) (voice_id : Option Int) (channel note : Nat) (velocity : ℚ)
  | choke (timing : Nat) (voice_id : Option Int) (channel note : Nat)
  | polyTuning (timing : Nat) (voice_id : Option Int) (channel note : Nat) (tuning : ℚ)
  | other (timing : Nat)
deriving DecidableEq

/-- `NoteEvent::timing`. -/
def NEvent.timing : NEvent → Nat
  | .noteOn t _ _ _ _ => t
  | .noteOff t _ _ _ _ => t
  | .choke t _ _ _ => t
  | .polyTuning t _ _ _ _ => t
  | .other t => t

/-- Whether an event is a `NoteOn`. -/
def NEvent.isNoteOn : NEvent → Bool
  | .noteOn _ _ _ _ _ => true
  | _ => false

/-- `Iterator::position`: first index satisfying a predicate. -/
def position (p : α → Bool) : List α → Option Nat
  | [] => none
  | x :: xs => if p x then some 0 else (position p xs).map (· + 1)

/-- First index of a minimal key together with that key, as `Iterator::min_by_key`
selects it (the earliest element wins ties). -/
def argmin_key (key : α → Nat) : List α → Option (Nat × Nat)
  | [] => none
  | x :: xs =>
    match argmin_key key xs with
    | none => some (0, key x)
    | some (j, k) => if key x ≤ k then some (0, key x) else some (j + 1, k)

/-- Replace the element at an index by applying `f`, leaving the list unchanged
when the index is out of range. -/
def modify_at (i : Nat) (f : α → α) : List α → List α
  | [] => []
  | x :: xs =>
    match i with
    | 0 => f x :: xs
    | i + 1 => x :: modify_at i f xs

/-- `compute_fallback_voice_id` of `lib.rs`: `note as i32 | ((channel as i32) << 16)`. -/
def compute_fallback_voice_id (note channel : Nat) : Int :=
  (Nat.lor note (Nat.shiftLeft channel 16) : Nat)

/-- `GenericSVF::default()`: identity configuration, zero state. -/
def default_svf : GenericSVF :=
  { sample_rate := 0, cfg := none, ic1 := (0, 0), ic2 := (0, 0) }

/-- Key used by voice stealing: `voice.as_ref().unwrap_unchecked().internal_voice_id`.
The Rust code relies on all inspected slots being occupied; for totality an empty
slot is given key `0` (that case is unreachable where the key is used). -/
def steal_key : Option Voice → Nat
  | some v => v.internal_voice_id
  | none => 0

/-- The fresh `Voice` value built at the top of `ScaleColorizr::start_voice`:
the fallback id scheme, the note frequency divided by `NUM_FILTERS / 2`, unit
velocity, an inert envelope and default filters. -/
def new_voice (P : Primitives) (s : EngineState) (voice_id : Option Int)
    (channel note : Nat) : Voice :=
  { id := voice_id.getD (compute_fallback_voice_id note channel)
    internal_voice_id := s.next_internal_voice_id
    channel := channel
    note := note
    frequency := P.note_to_freq note / ((NUM_FILTERS / 2 : Nat) : ℚ)
    velocity_sqrt := 1
    releasing := false
    amp_envelope := { style := .off, current := 0, target := 0 }
    filters := List.replicate NUM_FILTERS default_svf }

/-- `ScaleColorizr::start_voice`. Returns the updated state, the emitted
voice-terminated notifications, and the slot index the new voice occupies. The
notification for a stolen voice is computed from the slot's content before it is
overwritten, exactly as the Rust code sends it before the assignment. The two
fallback branches model situations the Rust code treats as unreachable
(`unwrap_unchecked`); they return the state unchanged. -/
def start_voice (P : Primitives) (prm : Params) (s : EngineState) (sample_offset : Nat)
    (voice_id : Option Int) (channel note : Nat) : EngineState × List TermEvent × Nat :=
  let nv := new_voice P s voice_id channel note
  let s1 : EngineState :=
    { s with next_internal_voice_id := (s.next_internal_voice_id + 1) % 2 ^ 64 }
  match position Option.isNone (s1.voices.take prm.voice_count) with
  | some free_voice_idx =>
    ({ s1 with voices := s1.voices.set free_voice_idx (some nv) }, [], free_voice_idx)
  | none =>
    match argmin_key steal_key (s1.voices.take prm.voice_count) with
    | some (j, _) =>
      match s1.voices.getD j none with
      | some oldest =>
        ({ s1 with voices := s1.voices.set j (some nv) },
         [{ timing := sample_offset, voice_id := oldest.id,
            channel := oldest.channel, note := oldest.note }], j)
      | none => (s1, [], j)
    | none => (s1, [], 0)

/-- The match predicate shared by `start_release_for_voices` and `choke_voices`:
`voice_id.is_some_and(|id| v.id == id) || (v.channel == channel && v.note == note)`. -/
def voice_matches (voice_id : Option Int) (channel note : Nat) (v : Voice) : Bool :=
  (match voice_id with
   | some id => v.id == id
   | none => false) || (v.channel == channel && v.note == note)

/-- `voice_id.map_or(usize::MAX, |_| 1)`: how many matches the release and choke
loops will act on. -/
def match_limit (voice_id : Option Int) : Nat :=
  match voice_id with
  | some _ => 1
  | none => 2 ^ 64 - 1

/-- The loop body of `start_release_for_voices` applied to one matched voice:
set `releasing`, switch the envelope to the exponential release style, retarget
it to zero. -/
def mark_releasing (release : ℚ) (v : Voice) : Voice :=
  { v with releasing := true
           amp_envelope := { v.amp_envelope with style := .exponential release, target := 0 } }

/-- The filtered, limited iteration of `start_release_for_voices`: mark the first
`limit` matching occupied slots, in slot order. -/
def release_loop (release : ℚ) (voice_id : Option Int) (channel note : Nat) :
    Nat → List (Option Voice) → List (Option Voice)
  | 0, l => l
  | _ + 1, [] => []
  | limit + 1, none :: rest => none :: release_loop release voice_id channel note (limit + 1) rest
  | limit + 1, some v :: rest =>
    if voice_matches voice_id channel note v then
      some (mark_releasing release v) :: release_loop release voice_id channel note limit rest
    else
      some v :: release_loop release voice_id channel note (limit + 1) rest

/-- `ScaleColorizr::start_release_for_voices` (the `sample_rate` argument feeds
`set_target`, whose numeric behaviour is abstracted). -/
def start_release_for_voices (prm : Params) (sample_rate : ℚ) (s : EngineState)
    (voice_id : Option Int) (channel note : Nat) : EngineState :=
  { s with voices :=
      release_loop prm.release voice_id channel note (match_limit voice_id) s.voices }

/-- The filtered, limited iteration of `choke_voices`: free the first `limit`
matching occupied slots immediately and emit one notification per freed voice,
carrying the voice's stored id but the event's channel and note. -/
def choke_loop (timing : Nat) (voice_id : Option Int) (channel note : Nat) :
    Nat → List (Option Voice) → List (Option Voice) × List TermEvent
  | 0, l => (l, [])
  | _ + 1, [] => ([], [])
  | limit + 1, ov :: rest =>
    if (ov.map (voice_matches voice_id channel note)).getD false then
      let ev : List TermEvent :=
        match ov with
        | some v => [{ timing := timing, voice_id := v.id, channel := channel, note := note }]
        | none => []
      let r := choke_loop timing voice_id channel note limit rest
      (none :: r.1, ev ++ r.2)
    else
      let r := choke_loop timing voice_id channel note (limit + 1) rest
      (ov :: r.1, r.2)

/-- `ScaleColorizr::choke_voices`. -/
def choke_voices (s : EngineState) (sample_offset : Nat) (voice_id : Option Int)
    (channel note : Nat) : EngineState × List TermEvent :=
  let r := choke_loop sample_offset voice_id channel note (match_limit voice_id) s.voices
  ({ s with voices := r.1 }, r.2)

/-- The find-first-and-retune iteration of `retune_voice`. The predicate here is
`voice_id == Some(v.id) || (v.channel == channel && v.note == note)`, and the new
frequency is `f32_midi_note_to_freq(f32::from(note) + tuning)` — computed from the
event's note and not divided by `NUM_FILTERS / 2`. -/
def retune_loop (P : Primitives) (voice_id : Option Int) (channel note : Nat) (tuning : ℚ) :
    List (Option Voice) → List (Option Voice)
  | [] => []
  | none :: rest => none :: retune_loop P voice_id channel note tuning rest
  | some v :: rest =>
    if voice_id == some v.id || (v.channel == channel && v.note == note) then
      some { v with frequency := P.note_to_freq ((note : ℚ) + tuning) } :: rest
    else
      some v :: retune_loop P voice_id channel note tuning rest

/-- `ScaleColorizr::retune_voice`. -/
def retune_voice (P : Primitives) (s : EngineState) (voice_id : Option Int)
    (channel note : Nat) (tuning : ℚ) : EngineState :=
  { s with voices := retune_loop P voice_id channel note tuning s.voices }

/-- `Plugin::reset` for `ScaleColorizr`: every occupied slot is cleared. The method
has no access to the process context, so it cannot emit notifications; the empty
event list makes that explicit for comparison with the other destruction paths. -/
def reset (s : EngineState) : EngineState × List TermEvent :=
  ({ s with voices := s.voices.map (fun _ => none) }, [])

/-- `GenericSVF` processing one stereo sample, as the spec describes a Filter
Unit's `process`: the two-pole recurrence over the two feedback registers, with
the coefficients computed (abstractly) from the sample rate and the stored
configuration. -/
def svf_process (P : Primitives) (f : GenericSVF) (x : Sample) : GenericSVF × Sample :=
  let c := P.svf_coeffs f.sample_rate f.cfg
  let result := splat c.b0 * x + f.ic1
  ({ f with ic1 := splat c.b1 * x - splat c.a1 * result + f.ic2
            ic2 := splat c.b2 * x - splat c.a2 * result }, result)

/-- `GenericSVF::set_bell`. -/
def set_bell (f : GenericSVF) (frequency q gain : ℚ) : GenericSVF :=
  { f with cfg := some { mode := .bell, freq := frequency, q := q, gain := gain } }

/-- `GenericSVF::set_notch`. -/
def set_notch (f : GenericSVF) (frequency q : ℚ) : GenericSVF :=
  { f with cfg := some { mode := .notch, freq := frequency, q := q, gain := 0 } }

/-- `GenericSVF::set_sample_rate`. -/
def set_sample_rate (f : GenericSVF) (sr : ℚ) : GenericSVF :=
  { f with sample_rate := sr }

/-- The non-skipped branch of the filter-band loop in `ScaleColorizr::process`:
compute the band falloff gain, set the sample rate, reconfigure the filter (bell
or notch, with `q = 39 * (-band_width_normalized) + 40`), then process the
sample through it. -/
def configure_and_process (P : Primitives) (prm : Params) (sample_rate vfreq amp frequency : ℚ)
    (filter : GenericSVF) (sample : Sample) : GenericSVF × Sample :=
  let adjusted_frequency := (frequency - vfreq) / (vfreq * ((NUM_FILTERS / 2 : Nat) : ℚ))
  let amp_falloff := P.exp_q (-adjusted_frequency)
  let f1 := set_sample_rate filter sample_rate
  let q : ℚ := 39 * (-prm.band_width_normalized) + 40
  let f2 :=
    match prm.filter_mode with
    | .peak => set_bell f1 frequency q (amp * amp_falloff)
    | .notch => set_notch f1 frequency q
  svf_process P f2 sample

/-- One band step of the per-sample filter loop (`lib.rs` lines 309–332): the
Nyquist safety guard (`continue` leaves both the filter and the running sample
untouched), else reconfigure and process. -/
def filter_step (P : Primitives) (prm : Params) (sample_rate vfreq amp : ℚ) (filter_idx : Nat)
    (filter : GenericSVF) (sample : Sample) : GenericSVF × Sample :=
  let frequency := vfreq * ((filter_idx : ℚ) + 1)
  if prm.safety_switch && decide (sample_rate / 2 ≤ frequency) then
    (filter, sample)
  else
    configure_and_process P prm sample_rate vfreq amp frequency filter sample

/-- The filter bank applied in series to one sample (the inner `for` over
`voice.filters`), starting at band index `i`. -/
def process_filters (P : Primitives) (prm : Params) (sample_rate vfreq amp : ℚ) :
    Nat → List GenericSVF → Sample → List GenericSVF × Sample
  | _, [], sample => ([], sample)
  | i, f :: fs, sample =>
    let r1 := filter_step P prm sample_rate vfreq amp i f sample
    let r2 := process_filters P prm sample_rate vfreq amp (i + 1) fs r1.2
    (r1.1 :: r2.1, r2.2)

/-- The body of the per-sample loop for one voice (`lib.rs` lines 304–336):
amplitude from the smoothed gain, the velocity and the envelope value, then the
filter bank in series, writing the result back into the output buffer. -/
def voice_sample_step (P : Primitives) (prm : Params) (sample_rate : ℚ)
    (gain env_values : List ℚ) (block_start : Nat)
    (acc : Voice × List Sample) (k : Nat) : Voice × List Sample :=
  let amp := gain.getD k 0 * acc.1.velocity_sqrt * env_values.getD k 0
  let sample := acc.2.getD (block_start + k) (0, 0)
  let r := process_filters P prm sample_rate acc.1.frequency amp 0 acc.1.filters sample
  ({ acc.1 with filters := r.1 }, acc.2.set (block_start + k) r.2)

/-- The per-sample loop for one voice over the sub-block
`[block_start, block_start + len)`. -/
def process_voice_samples (P : Primitives) (prm : Params) (sample_rate : ℚ)
    (gain env_values : List ℚ) (block_start len : Nat)
    (v : Voice) (out : List Sample) : Voice × List Sample :=
  (List.range len).foldl (voice_sample_step P prm sample_rate gain env_values block_start)
    (v, out)

/-- The voice loop of `ScaleColorizr::process` over one sub-block: advance each
occupied voice's amplitude envelope over the block, then run its filter bank on
every sample of the block. -/
def process_voices (P : Primitives) (prm : Params) (sample_rate : ℚ)
    (gain : List ℚ) (block_start len : Nat) :
    List (Option Voice) → List Sample → List (Option Voice) × List Sample
  | [], out => ([], out)
  | none :: rest, out =>
    let r := process_voices P prm sample_rate gain block_start len rest out
    (none :: r.1, r.2)
  | some v :: rest, out =>
    let adv := P.env_advance v.amp_envelope.style v.amp_envelope.current
      v.amp_envelope.target len
    let v1 := { v with amp_envelope := { v.amp_envelope with current := adv.2 } }
    let r1 := process_voice_samples P prm sample_rate gain adv.1 block_start len v1 out
    let r2 := process_voices P prm sample_rate gain block_start len rest r1.2
    (some r1.1 :: r2.1, r2.2)

/-- The delta (difference) pass of `ScaleColorizr::process` (lines 339–348):
add `-1` times the saved dry signal to the freshly processed output, in place,
over the sub-block. -/
def apply_delta (dry : List Sample) (block_start len : Nat) (out : List Sample) : List Sample :=
  (List.range len).foldl
    (fun o k =>
      o.set (block_start + k) (o.getD (block_start + k) (0, 0) + dry.getD k (0, 0) * splat (-1)))
    out

/-- The voice-retirement scan at the end of each sub-block (`lib.rs` lines
352–368): free every voice whose release has fully ended (releasing with the
envelope's previous value at zero) and emit one notification per freed voice,
carrying that voice's id, channel and note. -/
def terminate_finished (block_end : Nat) :
    List (Option Voice) → List (Option Voice) × List TermEvent
  | [] => ([], [])
  | none :: rest =>
    let r := terminate_finished block_end rest
    (none :: r.1, r.2)
  | some v :: rest =>
    let r := terminate_finished block_end rest
    if v.releasing && decide (v.amp_envelope.current = 0) then
      (none :: r.1,
       { timing := block_end, voice_id := v.id, channel := v.channel, note := v.note } :: r.2)
    else
      (some v :: r.1, r.2)

/-- One dispatch step of the event loop in `process_events` (the `match event`).
A `NoteOn` builds the attack envelope (reset to `0`, targeted at `1`), starts the
voice, then overwrites the new voice's `velocity_sqrt` and envelope. -/
def apply_event (P : Primitives) (prm : Params) (sample_rate : ℚ) (s : EngineState) :
    NEvent → EngineState × List TermEvent
  | .noteOn timing voice_id channel note velocity =>
    let amp_envelope : Smoother := { style := .exponential prm.attack, current := 0, target := 1 }
    let r := start_voice P prm s timing voice_id channel note
    let upd := fun (ov : Option Voice) => ov.map (fun v =>
      { v with velocity_sqrt := P.sqrt_q velocity, amp_envelope := amp_envelope })
    ({ r.1 with voices := modify_at r.2.2 upd r.1.voices }, r.2.1)
  | .noteOff _ voice_id channel note _ =>
    (start_release_for_voices prm sample_rate s voice_id channel note, [])
  | .choke timing voice_id channel note =>
    choke_voices s timing voice_id channel note
  | .polyTuning _ voice_id channel note tuning =>
    (retune_voice P s voice_id channel note tuning, [])
  | .other _ => (s, [])

/-- `ScaleColorizr::process_events`. The host event queue is modelled as a list
whose head is `context.next_event()`. Applies every event timed at or before the
block start; if the next event falls strictly inside the block, shortens the
block to end exactly at that timestamp. Returns the remaining queue, the
(possibly shortened) block end, the new state, the emitted notifications, and
the trace of applied events tagged with the block start they were applied at. -/
def process_events (P : Primitives) (prm : Params) (sample_rate : ℚ) (block_start : Nat) :
    List NEvent → Nat → EngineState →
    List NEvent × Nat × EngineState × List TermEvent × List (NEvent × Nat)
  | [], block_end, s => ([], block_end, s, [], [])
  | e :: rest, block_end, s =>
    if e.timing ≤ block_start then
      let r1 := apply_event P prm sample_rate s e
      let r2 := process_events P prm sample_rate block_start rest block_end r1.1
      (r2.1, r2.2.1, r2.2.2.1, r1.2 ++ r2.2.2.2.1, (e, block_start) :: r2.2.2.2.2)
    else if e.timing < block_end then
      (e :: rest, e.timing, s, [], [])
    else
      (e :: rest, block_end, s, [], [])

/-- One sub-block of the body of `ScaleColorizr::process`: save the dry signal,
run every occupied voice's filter bank over the block, then apply the delta pass
if it is enabled. -/
def process_sub_block (P : Primitives) (prm : Params) (sample_rate : ℚ)
    (s : EngineState) (out : List Sample) (block_start block_end : Nat) :
    EngineState × List Sample :=
  let block_len := block_end - block_start
  let gain := (List.range block_len).map (fun k => prm.gain_at (block_start + k))
  let dry := (List.range block_len).map (fun k => out.getD (block_start + k) (0, 0))
  let r := process_voices P prm sample_rate gain block_start block_len s.voices out
  let out2 := if prm.delta then apply_delta dry block_start block_len r.2 else r.2
  ({ s with voices := r.1 }, out2)

/-- The block-splitting loop of `ScaleColorizr::process` (lines 272–373), with
fuel bounding the number of remaining iterations; `process_buffer` supplies
enough fuel for the loop to run to completion. Returns the final state, the
output buffer, the emitted notifications, the trace of processed sub-blocks
`(block_start, block_end)`, and the trace of applied events, each tagged with
the block start it was applied at. -/
def process_loop (P : Primitives) (prm : Params) (sample_rate : ℚ) (num_samples : Nat) :
    Nat → List NEvent → Nat → Nat → EngineState → List Sample →
    EngineState × List Sample × List TermEvent × List (Nat × Nat) × List (NEvent × Nat)
  | 0, _, _, _, s, out => (s, out, [], [], [])
  | fuel + 1, q, block_start, block_end, s, out =>
    if block_start < num_samples then
      let r1 := process_events P prm sample_rate block_start q block_end s
      let be := r1.2.1
      let r2 := process_sub_block P prm sample_rate r1.2.2.1 out block_start be
      let r3 := terminate_finished be r2.1.voices
      let s3 : EngineState := { r2.1 with voices := r3.1 }
      let r4 := process_loop P prm sample_rate num_samples fuel r1.1 be
        (min (be + MAX_BLOCK_SIZE) num_samples) s3 r2.2
      (r4.1, r4.2.1, r1.2.2.2.1 ++ r3.2 ++ r4.2.2.1,
       (block_start, be) :: r4.2.2.2.1, r1.2.2.2.2 ++ r4.2.2.2.2)
    else
      (s, out, [], [], [])

/-- `ScaleColorizr::process` restricted to the engine core: run the
block-splitting loop over the whole buffer, starting from `block_start = 0` and
`block_end = MAX_BLOCK_SIZE.min(num_samples)`. The fuel `input.length` is
sufficient because every loop iteration advances `block_start` by at least one
sample. -/
def process_buffer (P : Primitives) (prm : Params) (sample_rate : ℚ)
    (s : EngineState) (q : List NEvent) (input : List Sample) :
    EngineState × List Sample × List TermEvent × List (Nat × Nat) × List (NEvent × Nat) :=
  process_loop P prm sample_rate input.length input.length q 0
    (min MAX_BLOCK_SIZE input.length) s input

/-- `BiquadCoefficients<T>` of `filter.rs`. -/
structure BiquadCoefficients (α : Type) where
  b0 : α
  b1 : α
  b2 : α
  a1 : α
  a2 : α
deriving DecidableEq

/-- `Biquad<T>` of `filter.rs`: coefficients plus the two feedback state
registers `s1`, `s2`. -/
structure Biquad (α : Type) where
  coefficients : BiquadCoefficients α
  s1 : α
  s2 : α
deriving DecidableEq

/-- `BiquadCoefficients::identity`: pass-through coefficients. -/
def BiquadCoefficients.identity [Zero α] [One α] : BiquadCoefficients α :=
  { b0 := 1, b1 := 0, b2 := 0, a1 := 0, a2 := 0 }

/-- `Biquad::default`: identity coefficients, zero state. -/
def Biquad.default_filter [Zero α] [One α] : Biquad α :=
  { coefficients := .identity, s1 := 0, s2 := 0 }

/-- `Biquad::new`. -/
def Biquad.new [Zero α] (c : BiquadCoefficients α) : Biquad α :=
  { coefficients := c, s1 := 0, s2 := 0 }

/-- Reconfiguration of a `Biquad`: the `coefficients` field is public and a
freshly computed `BiquadCoefficients` value is assigned to it; the state
registers are not part of the assignment. -/
def Biquad.set_coefficients (b : Biquad α) (c : BiquadCoefficients α) : Biquad α :=
  { b with coefficients := c }

/-- `Biquad::process`: the transposed direct-form recurrence of `filter.rs`. -/
def Biquad.process [Add α] [Sub α] [Mul α] (b : Biquad α) (sample : α) : Biquad α × α :=
  let result := b.coefficients.b0 * sample + b.s1
  ({ b with s1 := b.coefficients.b1 * sample - b.coefficients.a1 * result + b.s2
            s2 := b.coefficients.b2 * sample - b.coefficients.a2 * result }, result)

/-- `Biquad::reset`: zero the feedback registers, leaving coefficients alone. -/
def Biquad.reset [Zero α] (b : Biquad α) : Biquad α :=
  { b with s1 := 0, s2 := 0 }

/-- `BiquadCoefficients::peaking_eq`, parameterized by the `f32` transcendentals
(`powf` and `sin_cos`) and by the `f32` value of `TAU`. -/
def BiquadCoefficients.peaking_eq (powf : ℚ → ℚ → ℚ) (sin_cos : ℚ → ℚ × ℚ) (tau : ℚ)
    (sample_rate frequency db_gain q : ℚ) : BiquadCoefficients ℚ :=
  let a := powf 10 (db_gain / 40)
  let omega0 := tau * (frequency / sample_rate)
  let sc := sin_cos omega0
  let alpha := sc.1 / (2 * q)
  let a0 := 1 + alpha / a
  { b0 := (1 + alpha * a) / a0
    b1 := (-2 * sc.2) / a0
    b2 := (1 - alpha * a) / a0
    a1 := (-2 * sc.2) / a0
    a2 := (1 - alpha / a) / a0 }

/-- The engine state after plugin construction (`ScaleColorizr::default`):
all voice slots empty, internal sequence counter at zero. -/
def init_state : EngineState :=
  { voices := List.replicate NUM_VOICES none, next_internal_voice_id := 0 }

/-- A concrete instantiation of the external primitives, used by the evaluation
witnesses (the theorems themselves hold for arbitrary primitives). -/
def P_ex : Primitives :=
  { exp_q := fun x => x
    sqrt_q := fun x => x
    note_to_freq := fun x => x + 1
    env_advance := fun _ current _ n => (List.replicate n current, current)
    svf_coeffs := fun _ _ => { b0 := 1, b1 := 0, b2 := 0, a1 := 0, a2 := 0 } }

/-- A concrete parameter set for the evaluation witnesses. -/
def prm_ex : Params :=
  { gain_at := fun _ => 1, attack := 2, release := 10, band_width_normalized := 0,
    delta := false, safety_switch := true, voice_count := 2, filter_mode := .peak }

theorem position_eq_some (p : α → Bool) :
    ∀ (l : List α) (i : Nat), position p l = some i →
      i < l.length ∧ ∀ d, p (l.getD i d) = true := by
  intro l
  induction l with
  | nil => intro i h; simp [position] at h
  | cons x xs ih =>
    intro i h
    by_cases hx : p x
    · simp [position, hx] at h
      subst h
      exact ⟨Nat.succ_pos _, fun d => by simpa using hx⟩
    · simp [position, hx] at h
      obtain ⟨j, hj, rfl⟩ := h
      obtain ⟨h1, h2⟩ := ih j hj
      exact ⟨Nat.succ_lt_succ h1, fun d => by simpa using h2 d⟩

theorem position_eq_none (p : α → Bool) :
    ∀ (l : List α), position p l = none → ∀ x ∈ l, p x = false := by
  intro l
  induction l with
  | nil => intro _ x hx; cases hx
  | cons y ys ih =>
    intro h x hx
    by_cases hy : p y
    · simp [position, hy] at h
    · rcases List.mem_cons.mp hx with hx | hx
      · subst hx; simpa using hy
      · exact ih (by simpa [position, hy] using h) x hx

theorem argmin_key_ne_none (key : α → Nat) (x : α) (xs : List α) :
    argmin_key key (x :: xs) ≠ none := by
  cases h : argmin_key key xs <;> simp [argmin_key, h]
  · split <;> simp

theorem argmin_key_spec (key : α → Nat) :
    ∀ (l : List α) (j k : Nat), argmin_key key l = some (j, k) →
      (j < l.length ∧ ∀ d, key (l.getD j d) = k) ∧ ∀ x ∈ l, k ≤ key x := by
  intro l
  induction l with
  | nil => intro j k h; simp [argmin_key] at h
  | cons x xs ih =>
    intro j k h
    cases hxs : argmin_key key xs with
    | none =>
      have hnil : xs = [] := by
        cases xs with
        | nil => rfl
        | cons y ys => exact absurd hxs (argmin_key_ne_none key y ys)
      subst hnil
      simp [argmin_key] at h
      obtain ⟨rfl, rfl⟩ := h
      simp
    | some jk =>
      obtain ⟨j', k'⟩ := jk
      obtain ⟨⟨ih1, ih2⟩, ih3⟩ := ih j' k' hxs
      by_cases hle : key x ≤ k'
      · simp [argmin_key, hxs, hle] at h
        obtain ⟨rfl, rfl⟩ := h
        refine ⟨⟨Nat.succ_pos _, fun d => by simp⟩, ?_⟩
        intro y hy
        rcases List.mem_cons.mp hy with hy | hy
        · subst hy; exact le_refl _
        · exact le_trans hle (ih3 y hy)
      · simp [argmin_key, hxs, hle] at h
        obtain ⟨rfl, rfl⟩ := h
        refine ⟨⟨Nat.succ_lt_succ ih1, fun d => by simpa using ih2 d⟩, ?_⟩
        intro y hy
        rcases List.mem_cons.mp hy with hy | hy
        · subst hy; exact le_of_lt (Nat.lt_of_not_le hle)
        · exact ih3 y hy

theorem getD_set_ne (l : List α) (i j : Nat) (x d : α) (h : i ≠ j) :
    (l.set i x).getD j d = l.getD j d := by
  simp [List.getD_eq_getElem?_getD, List.getElem?_set_ne h]

theorem getD_set_self (l : List α) (i : Nat) (x d : α) (h : i < l.length) :
    (l.set i x).getD i d = x := by
  simp [List.getD_eq_getElem?_getD, List.getElem?_set_self h]

theorem getD_take (l : List α) (n j : Nat) (d : α) (h : j < n) :
    (l.take n).getD j d = l.getD j d := by
  simp [List.getD_eq_getElem?_getD, List.getElem?_take, h]

theorem getD_replicate (n i : Nat) (d : α) (x : α) :
    (List.replicate n x).getD i d = if i < n then x else d := by
  induction n generalizing i with
  | zero => simp [List.getD_eq_getElem?_getD]
  | succ m ih =>
    cases i with
    | zero => simp [List.replicate_succ]
    | succ i' => simpa [List.replicate_succ, Nat.succ_lt_succ_iff] using ih i'

/-- C8: reconfiguring a Filter Unit's coefficients — assigning any freshly
computed `BiquadCoefficients` value, in particular repeatedly with identical
parameters — leaves the two feedback state registers `s1` and `s2` exactly
unchanged; `reset` zeroes both registers while leaving the coefficients alone;
`process` leaves the coefficients alone (only it and `reset` mutate the state
registers); and a newly constructed filter starts with zero state. -/
theorem biquad_state_effects {α : Type} [Add α] [Sub α] [Mul α] [Zero α]
    (b : Biquad α) (c : BiquadCoefficients α) (sample : α) :
    ((b.set_coefficients c).s1 = b.s1 ∧ (b.set_coefficients c).s2 = b.s2 ∧
       (b.set_coefficients c).coefficients = c) ∧
    ((b.set_coefficients c).set_coefficients c = b.set_coefficients c) ∧
    (b.reset.s1 = 0 ∧ b.reset.s2 = 0 ∧ b.reset.coefficients = b.coefficients) ∧
    ((b.process sample).1.coefficients = b.coefficients) ∧
    ((Biquad.new c).s1 = 0 ∧ (Biquad.new c).s2 = 0 ∧ (Biquad.new c).coefficients = c) :=
  ⟨⟨rfl, rfl, rfl⟩, rfl, ⟨rfl, rfl, rfl⟩, rfl, rfl, rfl, rfl⟩

theorem position_isNone_replicate (n : Nat) (hn : 1 ≤ n) :
    position Option.isNone (List.replicate n (none : Option Voice)) = some 0 := by
  cases n with
  | zero => omega
  | succ m => rw [List.replicate_succ]; simp [position]

/-- C10: a note-on initializes the voice's frequency to the converted note
frequency divided by `NUM_FILTERS / 2` (that is, by `4`), while a subsequent
retune of that voice with tuning offset `0` overwrites it with the undivided
conversion of the same note — so a zero-offset retune does not preserve the
note-on frequency but multiplies it by `NUM_FILTERS / 2` (whenever the
converted frequency is nonzero, as audio frequencies are). -/
theorem start_voice_retune_frequency (P : Primitives) (prm : Params)
    (hvc : 1 ≤ prm.voice_count) (off : Nat) (vid : Option Int) (ch note : Nat) :
    ∃ v w : Voice,
      (start_voice P prm init_state off vid ch note).1.voices.getD 0 none = some v ∧
      v.frequency = P.note_to_freq (note : ℚ) / ((NUM_FILTERS / 2 : Nat) : ℚ) ∧
      (retune_voice P (start_voice P prm init_state off vid ch note).1
          vid ch note 0).voices.getD 0 none = some w ∧
      w.frequency = P.note_to_freq (note : ℚ) ∧
      w.frequency = ((NUM_FILTERS / 2 : Nat) : ℚ) * v.frequency ∧
      (P.note_to_freq (note : ℚ) ≠ 0 → w.frequency ≠ v.frequency) := by
  have hpos2 : position Option.isNone
      (List.replicate (prm.voice_count ⊓ NUM_VOICES) (none : Option Voice)) = some 0 :=
    position_isNone_replicate _ (le_min hvc (by norm_num [NUM_VOICES]))
  have hsv : start_voice P prm init_state off vid ch note =
      ({ voices := (List.replicate NUM_VOICES (none : Option Voice)).set 0
            (some (new_voice P init_state vid ch note)),
         next_internal_voice_id := 1 }, [], 0) := by
    simp [start_voice, init_state, hpos2]
  have hset : (List.replicate NUM_VOICES (none : Option Voice)).set 0
      (some (new_voice P init_state vid ch note)) =
      some (new_voice P init_state vid ch note) :: List.replicate 127 none := by
    show (List.replicate (127 + 1) (none : Option Voice)).set 0 _ = _
    rw [List.replicate_succ, List.set_cons_zero]
  have hfour : ((NUM_FILTERS / 2 : Nat) : ℚ) = 4 := by norm_num [NUM_FILTERS]
  have hmatch : (vid == some (new_voice P init_state vid ch note).id ||
      ((new_voice P init_state vid ch note).channel == ch &&
       (new_voice P init_state vid ch note).note == note)) = true := by
    simp [new_voice]
  refine ⟨new_voice P init_state vid ch note,
    { new_voice P init_state vid ch note with frequency := P.note_to_freq ((note : ℚ) + 0) },
    ?_, ?_, ?_, ?_, ?_, ?_⟩
  · rw [hsv]
    show ((List.replicate NUM_VOICES (none : Option Voice)).set 0
        (some (new_voice P init_state vid ch note))).getD 0 none = _
    rw [hset, List.getD_cons_zero]
  · simp [new_voice]
  · rw [hsv]
    simp only [retune_voice, hset, retune_loop, hmatch, if_true, List.getD_cons_zero]
  · show P.note_to_freq ((note : ℚ) + 0) = P.note_to_freq (note : ℚ)
    rw [add_zero]
  · show P.note_to_freq ((note : ℚ) + 0) =
      ((NUM_FILTERS / 2 : Nat) : ℚ) * (P.note_to_freq (note : ℚ) / ((NUM_FILTERS / 2 : Nat) : ℚ))
    rw [add_zero, hfour]
    ring
  · intro hnz
    show P.note_to_freq ((note : ℚ) + 0) ≠
      P.note_to_freq (note : ℚ) / ((NUM_FILTERS / 2 : Nat) : ℚ)
    rw [add_zero, hfour]
    intro hEq
    apply hnz
    linarith

/-- Evaluation witness for the note-on versus retune frequency relation, at
note 60 with the example primitives. -/
theorem start_voice_retune_frequency_witness :
    1 ≤ prm_ex.voice_count ∧
    (∃ v w : Voice,
      (start_voice P_ex prm_ex init_state 0 none 0 60).1.voices.getD 0 none = some v ∧
      v.frequency = P_ex.note_to_freq (60 : ℚ) / ((NUM_FILTERS / 2 : Nat) : ℚ) ∧
      (retune_voice P_ex (start_voice P_ex prm_ex init_state 0 none 0 60).1
          none 0 60 0).voices.getD 0 none = some w ∧
      w.frequency = P_ex.note_to_freq (60 : ℚ) ∧
      w.frequency = ((NUM_FILTERS / 2 : Nat) : ℚ) * v.frequency ∧
      (P_ex.note_to_freq (60 : ℚ) ≠ 0 → w.frequency ≠ v.frequency)) :=
  ⟨by decide, start_voice_retune_frequency P_ex prm_ex (by decide) 0 none 0 60⟩

/-- The voices destroyed between a before and an after snapshot of the voice
pool: voices of slots that were occupied before and are empty after, in slot
order. -/
def freed_voices : List (Option Voice) → List (Option Voice) → List Voice
  | some v :: l, none :: l2 => v :: freed_voices l l2
  | _ :: l, _ :: l2 => freed_voices l l2
  | _, _ => []

theorem freed_voices_cons_same (x : Option Voice) (l l2 : List (Option Voice)) :
    freed_voices (x :: l) (x :: l2) = freed_voices l l2 := by
  cases x <;> rfl

theorem freed_voices_refl : ∀ l : List (Option Voice), freed_voices l l = [] := by
  intro l
  induction l with
  | nil => rfl
  | cons x xs ih => rw [freed_voices_cons_same]; exact ih

theorem choke_loop_spec (timing : Nat) (voice_id : Option Int) (channel note : Nat) :
    ∀ (l : List (Option Voice)) (limit : Nat),
      (choke_loop timing voice_id channel note limit l).2 =
        (freed_voices l (choke_loop timing voice_id channel note limit l).1).map
          (fun v => { timing := timing, voice_id := v.id, channel := channel, note := note }) ∧
      (∀ v ∈ freed_voices l (choke_loop timing voice_id channel note limit l).1,
         voice_matches voice_id channel note v = true) ∧
      (∀ i, (choke_loop timing voice_id channel note limit l).1.getD i none = l.getD i none ∨
            (choke_loop timing voice_id channel note limit l).1.getD i none = none) ∧
      (choke_loop timing voice_id channel note limit l).1.length = l.length := by
  intro l
  induction l with
  | nil =>
    intro limit
    cases limit <;> simp [choke_loop, freed_voices]
  | cons ov rest ih =>
    intro limit
    cases limit with
    | zero =>
      simp [choke_loop, freed_voices_refl]
    | succ limit =>
      by_cases hm : (ov.map (voice_matches voice_id channel note)).getD false = true
      · cases ov with
        | none => simp at hm
        | some v =>
          have hv : voice_matches voice_id channel note v = true := by simpa using hm
          have heq : choke_loop timing voice_id channel note (limit + 1) (some v :: rest) =
              (none :: (choke_loop timing voice_id channel note limit rest).1,
               { timing := timing, voice_id := v.id, channel := channel, note := note } ::
                 (choke_loop timing voice_id channel note limit rest).2) := by
            simp [choke_loop, hv]
          obtain ⟨ih1, ih2, ih3, ih4⟩ := ih limit
          rw [heq]
          have hfv : freed_voices (some v :: rest)
              (none :: (choke_loop timing voice_id channel note limit rest).1) =
              v :: freed_voices rest (choke_loop timing voice_id channel note limit rest).1 := rfl
          refine ⟨?_, ?_, ?_, ?_⟩
          · rw [hfv, List.map_cons, ih1]
          · intro w hw
            rw [hfv] at hw
            rcases List.mem_cons.mp hw with hw | hw
            · subst hw; exact hv
            · exact ih2 w hw
          · intro i
            cases i with
            | zero => right; simp
            | succ i' => simpa using ih3 i'
          · simpa using ih4
      · have hm' : (ov.map (voice_matches voice_id channel note)).getD false = false := by
          simpa using hm
        have heq : choke_loop timing voice_id channel note (limit + 1) (ov :: rest) =
            (ov :: (choke_loop timing voice_id channel note (limit + 1) rest).1,
             (choke_loop timing voice_id channel note (limit + 1) rest).2) := by
          simp [choke_loop, hm']
        obtain ⟨ih1, ih2, ih3, ih4⟩ := ih (limit + 1)
        rw [heq]
        refine ⟨?_, ?_, ?_, ?_⟩
        · rw [freed_voices_cons_same]; exact ih1
        · intro w hw
          rw [freed_voices_cons_same] at hw
          exact ih2 w hw
        · intro i
          cases i with
          | zero => left; simp
          | succ i' => simpa using ih3 i'
        · simpa using ih4

/-- C5: for every choke event, each destroyed voice's slot is freed immediately
(the only change choke makes to any slot is clearing it — no release envelope is
started), and the emitted voice-terminated notifications are exactly one per
freed voice, in slot order, each carrying the matched voice's stored id — not
the id supplied in the event, from which it may differ under the fallback-id
scheme. -/
theorem choke_voices_spec (s : EngineState) (sample_offset : Nat)
    (voice_id : Option Int) (channel note : Nat) :
    (choke_voices s sample_offset voice_id channel note).2 =
      (freed_voices s.voices (choke_voices s sample_offset voice_id channel note).1.voices).map
        (fun v => { timing := sample_offset, voice_id := v.id,
                    channel := channel, note := note }) ∧
    (∀ v ∈ freed_voices s.voices (choke_voices s sample_offset voice_id channel note).1.voices,
       voice_matches voice_id channel note v = true) ∧
    (∀ i, (choke_voices s sample_offset voice_id channel note).1.voices.getD i none =
            s.voices.getD i none ∨
          (choke_voices s sample_offset voice_id channel note).1.voices.getD i none = none) := by
  obtain ⟨h1, h2, h3, _⟩ :=
    choke_loop_spec sample_offset voice_id channel note s.voices (match_limit voice_id)
  exact ⟨h1, h2, h3⟩

/-- A concrete voice for the counterexamples: id 99, channel 0, note 60. -/
def voice_a : Voice :=
  { id := 99, channel := 0, note := 60, frequency := 1, internal_voice_id := 0,
    velocity_sqrt := 1, releasing := false,
    amp_envelope := { style := .off, current := 0, target := 0 },
    filters := List.replicate NUM_FILTERS default_svf }

/-- A second concrete voice sharing (channel, note) with `voice_a` but carrying
the distinct id 5 (host-side voice overlap). -/
def voice_b : Voice :=
  { voice_a with id := 5, internal_voice_id := 1 }

/-- A state holding `voice_a` in slot 0 and `voice_b` in slot 1. -/
def two_voice_state : EngineState :=
  { voices := some voice_a :: some voice_b :: List.replicate 126 none,
    next_internal_voice_id := 2 }

/-- C3 counterexample: a note-off carrying the explicit voice id 5 — the id of
the slot-1 voice — sets `releasing` on the slot-0 voice, whose id is 99, and
leaves the voice with id 5 untouched: the match predicate also accepts a
(channel, note) match and the loop stops after the first hit. -/
theorem noteoff_explicit_id_cex :
    ((start_release_for_voices prm_ex 1 two_voice_state (some 5) 0 60).voices.getD 0 none).map
        (fun v => (v.id, v.releasing)) = some ((99 : Int), true) ∧
    ((start_release_for_voices prm_ex 1 two_voice_state (some 5) 0 60).voices.getD 1 none).map
        (fun v => (v.id, v.releasing)) = some ((5 : Int), false) := by
  decide

/-- Whether a slot holds a voice matched by the release and choke predicate. -/
def slot_matches (voice_id : Option Int) (channel note : Nat) : Option Voice → Bool
  | some v => voice_matches voice_id channel note v
  | none => false

theorem release_loop_zero (release : ℚ) (voice_id : Option Int) (channel note : Nat)
    (l : List (Option Voice)) : release_loop release voice_id channel note 0 l = l := by
  cases l <;> rfl

theorem release_loop_one (release : ℚ) (voice_id : Option Int) (channel note : Nat) :
    ∀ l : List (Option Voice),
      release_loop release voice_id channel note 1 l =
        (match position (slot_matches voice_id channel note) l with
         | none => l
         | some j => modify_at j (Option.map (mark_releasing release)) l) := by
  intro l
  induction l with
  | nil => simp [release_loop, position]
  | cons ov rest ih =>
    cases ov with
    | none =>
      have h0 : slot_matches voice_id channel note none = false := rfl
      show none :: release_loop release voice_id channel note 1 rest = _
      rw [ih]
      simp only [position, h0, Bool.false_eq_true, if_false]
      cases hp : position (slot_matches voice_id channel note) rest <;> simp [modify_at]
    | some v =>
      by_cases hv : voice_matches voice_id channel note v = true
      · have h0 : slot_matches voice_id channel note (some v) = true := hv
        show (if voice_matches voice_id channel note v then
            some (mark_releasing release v) :: release_loop release voice_id channel note 0 rest
          else some v :: release_loop release voice_id channel note 1 rest) = _
        rw [if_pos hv]
        simp only [position, h0, if_true]
        rw [release_loop_zero]
        rfl
      · have h0 : slot_matches voice_id channel note (some v) = false := by
          simpa [slot_matches] using hv
        show (if voice_matches voice_id channel note v then
            some (mark_releasing release v) :: release_loop release voice_id channel note 0 rest
          else some v :: release_loop release voice_id channel note 1 rest) = _
        rw [if_neg (by simp [hv])]
        rw [ih]
        simp only [position, h0, Bool.false_eq_true, if_false]
        cases hp : position (slot_matches voice_id channel note) rest <;> simp [modify_at]

theorem release_loop_all (release : ℚ) (voice_id : Option Int) (channel note : Nat)
    (hid : voice_id = none) :
    ∀ (l : List (Option Voice)) (limit : Nat), l.length ≤ limit →
      release_loop release voice_id channel note limit l =
        l.map (fun ov => ov.map (fun v =>
          if voice_matches voice_id channel note v then mark_releasing release v else v)) := by
  subst hid
  intro l
  induction l with
  | nil => intro limit h; cases limit <;> simp [release_loop]
  | cons ov rest ih =>
    intro limit h
    cases limit with
    | zero => simp at h
    | succ m =>
      have hr : rest.length ≤ m := by simpa using h
      cases ov with
      | none =>
        show none :: release_loop release none channel note (m + 1) rest = _
        rw [ih (m + 1) (le_trans hr (Nat.le_succ m))]
        rfl
      | some v =>
        by_cases hv : voice_matches none channel note v = true
        · show (if voice_matches none channel note v then
              some (mark_releasing release v) :: release_loop release none channel note m rest
            else some v :: release_loop release none channel note (m + 1) rest) = _
          rw [if_pos hv, ih m hr]
          simp [hv]
        · show (if voice_matches none channel note v then
              some (mark_releasing release v) :: release_loop release none channel note m rest
            else some v :: release_loop release none channel note (m + 1) rest) = _
          rw [if_neg (by simp [hv]), ih (m + 1) (le_trans hr (Nat.le_succ m))]
          simp [hv]

/-- C3 amended: a note-off with an explicit voice id sets `releasing` on exactly
the first slot (in slot order) whose voice matches the event — a match being an
id match or a (channel, note) match, so the transitioned voice need not be the
one carrying the given id — and on no other voice; a note-off without a voice
id sets `releasing` on every voice whose (channel, note) pair matches. -/
theorem start_release_spec (prm : Params) (sample_rate : ℚ) (s : EngineState)
    (voice_id : Option Int) (channel note : Nat)
    (hlen : s.voices.length ≤ 2 ^ 64 - 1) :
    (voice_id.isSome = true →
      (position (slot_matches voice_id channel note) s.voices = none →
        (start_release_for_voices prm sample_rate s voice_id channel note).voices = s.voices) ∧
      (∀ j, position (slot_matches voice_id channel note) s.voices = some j →
        (start_release_for_voices prm sample_rate s voice_id channel note).voices =
          modify_at j (Option.map (mark_releasing prm.release)) s.voices)) ∧
    (voice_id = none →
      (start_release_for_voices prm sample_rate s voice_id channel note).voices =
        s.voices.map (fun ov => ov.map (fun v =>
          if v.channel == channel && v.note == note then mark_releasing prm.release v
          else v))) := by
  constructor
  · intro hsome
    obtain ⟨id, rfl⟩ := Option.isSome_iff_exists.mp hsome
    have hlim : match_limit (some id) = 1 := rfl
    constructor
    · intro hp
      show release_loop prm.release (some id) channel note (match_limit (some id)) s.voices = _
      rw [hlim, release_loop_one, hp]
    · intro j hp
      show release_loop prm.release (some id) channel note (match_limit (some id)) s.voices = _
      rw [hlim, release_loop_one, hp]
  · intro hnone
    subst hnone
    have hlim : match_limit (none : Option Int) = 2 ^ 64 - 1 := rfl
    show release_loop prm.release none channel note (match_limit none) s.voices = _
    rw [hlim, release_loop_all prm.release none channel note rfl s.voices (2 ^ 64 - 1) hlen]
    apply List.map_congr_left
    intro ov hov
    cases ov with
    | none => rfl
    | some v => simp [voice_matches]

set_option maxRecDepth 8000 in
/-- Evaluation witness for the amended note-off semantics: on the two-voice
state, the note-off with explicit id 5 transitions exactly the first
(channel, note)-matching slot, slot 0. -/
theorem start_release_spec_witness :
    two_voice_state.voices.length ≤ 2 ^ 64 - 1 ∧
    (some (5 : Int)).isSome = true ∧
    position (slot_matches (some 5) 0 60) two_voice_state.voices = some 0 ∧
    (start_release_for_voices prm_ex 1 two_voice_state (some 5) 0 60).voices =
      modify_at 0 (Option.map (mark_releasing prm_ex.release)) two_voice_state.voices :=
  ⟨by decide, by decide, by decide,
   ((start_release_spec prm_ex 1 two_voice_state (some 5) 0 60 (by decide)).1
      (by decide)).2 0 (by decide)⟩

theorem start_voice_cases (P : Primitives) (prm : Params) (s : EngineState) (off : Nat)
    (vid : Option Int) (ch nt : Nat) :
    (∃ i, position Option.isNone (s.voices.take prm.voice_count) = some i ∧
       start_voice P prm s off vid ch nt =
         ({ voices := s.voices.set i (some (new_voice P s vid ch nt)),
            next_internal_voice_id := (s.next_internal_voice_id + 1) % 2 ^ 64 }, [], i)) ∨
    (∃ j k old, position Option.isNone (s.voices.take prm.voice_count) = none ∧
       argmin_key steal_key (s.voices.take prm.voice_count) = some (j, k) ∧
       s.voices.getD j none = some old ∧
       start_voice P prm s off vid ch nt =
         ({ voices := s.voices.set j (some (new_voice P s vid ch nt)),
            next_internal_voice_id := (s.next_internal_voice_id + 1) % 2 ^ 64 },
          [{ timing := off, voice_id := old.id, channel := old.channel, note := old.note }],
          j)) ∨
    ((start_voice P prm s off vid ch nt).1.voices = s.voices ∧
     (start_voice P prm s off vid ch nt).2.1 = [] ∧
     ((∃ j k, argmin_key steal_key (s.voices.take prm.voice_count) = some (j, k) ∧
         s.voices.getD j none = none) ∨
      argmin_key steal_key (s.voices.take prm.voice_count) = none)) := by
  cases hpos : position Option.isNone (s.voices.take prm.voice_count) with
  | some i =>
    left
    refine ⟨i, rfl, ?_⟩
    simp only [start_voice, hpos]
  | none =>
    cases harg : argmin_key steal_key (s.voices.take prm.voice_count) with
    | some jk =>
      obtain ⟨j, k⟩ := jk
      cases hold : s.voices.getD j none with
      | some old =>
        right; left
        refine ⟨j, k, old, rfl, rfl, hold, ?_⟩
        simp only [start_voice, hpos, harg, hold]
      | none =>
        right; right
        refine ⟨?_, ?_, Or.inl ⟨j, k, rfl, hold⟩⟩
        · simp only [start_voice, hpos, harg, hold]
        · simp only [start_voice, hpos, harg, hold]
    | none =>
      right; right
      refine ⟨?_, ?_, Or.inr rfl⟩
      · simp only [start_voice, hpos, harg]
      · simp only [start_voice, hpos, harg]

/-- Number of occupied voice slots. -/
def occupied_count (l : List (Option Voice)) : Nat := l.countP Option.isSome

theorem occupied_count_le (l : List (Option Voice)) (vc : Nat)
    (h : ∀ i, vc ≤ i → l.getD i none = none) : occupied_count l ≤ vc := by
  have hsplit : l.countP Option.isSome =
      (l.take vc).countP Option.isSome + (l.drop vc).countP Option.isSome := by
    conv_lhs => rw [← List.take_append_drop vc l]
    exact List.countP_append _ _ _
  have hdrop : (l.drop vc).countP Option.isSome = 0 := by
    rw [List.countP_eq_zero]
    intro a ha
    obtain ⟨j, hj, hja⟩ := List.mem_iff_getElem.mp ha
    have h1 : (l.drop vc)[j]? = some a := by
      rw [List.getElem?_eq_getElem hj, hja]
    rw [List.getElem?_drop] at h1
    have h2 : l.getD (vc + j) none = a := by
      rw [List.getD_eq_getElem?_getD, h1]; rfl
    have h3 := h (vc + j) (Nat.le_add_right _ _)
    rw [h3] at h2
    subst h2
    simp
  have htake : (l.take vc).countP Option.isSome ≤ vc := by
    refine le_trans (List.countP_le_length _) ?_
    rw [List.length_take]
    exact min_le_left _ _
  rw [occupied_count, hsplit, hdrop]
  omega

theorem start_voice_preserves (P : Primitives) (prm : Params) (s : EngineState) (off : Nat)
    (vid : Option Int) (ch nt : Nat)
    (h : ∀ i, prm.voice_count ≤ i → s.voices.getD i none = none) :
    (∀ i, prm.voice_count ≤ i →
      (start_voice P prm s off vid ch nt).1.voices.getD i none = none) ∧
    (start_voice P prm s off vid ch nt).1.voices.length = s.voices.length := by
  rcases start_voice_cases P prm s off vid ch nt with
    ⟨i, hp, heq⟩ | ⟨j, k, old, hp, harg, hold, heq⟩ | ⟨hv, he, hrest⟩
  · have hib : i < prm.voice_count := by
      have h1 := (position_eq_some _ _ _ hp).1
      rw [List.length_take] at h1
      exact lt_of_lt_of_le h1 (min_le_left _ _)
    rw [heq]
    constructor
    · intro i' hi'
      show (s.voices.set i _).getD i' none = none
      rw [getD_set_ne _ _ _ _ _ (by omega)]
      exact h i' hi'
    · exact List.length_set _ _ _
  · have hjb : j < prm.voice_count := by
      have h1 := ((argmin_key_spec steal_key _ j k harg).1).1
      rw [List.length_take] at h1
      exact lt_of_lt_of_le h1 (min_le_left _ _)
    rw [heq]
    constructor
    · intro i' hi'
      show (s.voices.set j _).getD i' none = none
      rw [getD_set_ne _ _ _ _ _ (by omega)]
      exact h i' hi'
    · exact List.length_set _ _ _
  · rw [hv]
    exact ⟨h, rfl⟩

/-- Fold a sequence of note-on events `(sample_offset, voice_id, channel, note)`
through `start_voice`, as successive `NoteOn` dispatches do. -/
def apply_note_ons (P : Primitives) (prm : Params) :
    List (Nat × Option Int × Nat × Nat) → EngineState → EngineState
  | [], s => s
  | e :: es, s =>
    apply_note_ons P prm es (start_voice P prm s e.1 e.2.1 e.2.2.1 e.2.2.2).1

theorem apply_note_ons_tail_free (P : Primitives) (prm : Params) :
    ∀ (ons : List (Nat × Option Int × Nat × Nat)) (s : EngineState),
      (∀ i, prm.voice_count ≤ i → s.voices.getD i none = none) →
      ∀ i, prm.voice_count ≤ i → (apply_note_ons P prm ons s).voices.getD i none = none := by
  intro ons
  induction ons with
  | nil => intro s h; exact h
  | cons e es ih =>
    intro s h
    exact ih _ ((start_voice_preserves P prm s e.1 e.2.1 e.2.2.1 e.2.2.2 h).1)

/-- C1: starting from the freshly constructed engine, no sequence of note-on
events ever brings the number of occupied voice slots above the configured
voice-count limit; and whenever the first `voice_count` slots are all occupied,
a note-on steals exactly an occupied slot holding the minimal internal sequence
number among those slots, emitting one voice-terminated notification that
carries the stolen voice's identity — captured from the slot before the new
voice overwrites it, exactly as the code sends the event before the
assignment. -/
theorem voice_count_and_stealing (P : Primitives) (prm : Params) :
    (∀ ons : List (Nat × Option Int × Nat × Nat),
       occupied_count (apply_note_ons P prm ons init_state).voices ≤ prm.voice_count) ∧
    (∀ (s : EngineState) (off : Nat) (vid : Option Int) (ch nt : Nat),
       1 ≤ prm.voice_count → prm.voice_count ≤ s.voices.length →
       (∀ i, i < prm.voice_count → (s.voices.getD i none).isSome = true) →
       ∃ j old, j < prm.voice_count ∧ s.voices.getD j none = some old ∧
         (start_voice P prm s off vid ch nt).2.1 =
           [{ timing := off, voice_id := old.id, channel := old.channel,
              note := old.note }] ∧
         (start_voice P prm s off vid ch nt).1.voices =
           s.voices.set j (some (new_voice P s vid ch nt)) ∧
         (∀ m u, m < prm.voice_count → s.voices.getD m none = some u →
            old.internal_voice_id ≤ u.internal_voice_id)) := by
  constructor
  · intro ons
    refine occupied_count_le _ _ ?_
    refine apply_note_ons_tail_free P prm ons init_state ?_
    intro i hi
    show (List.replicate NUM_VOICES (none : Option Voice)).getD i none = none
    rw [getD_replicate]
    split <;> rfl
  · intro s off vid ch nt hvc hlen hocc
    have htlen : (s.voices.take prm.voice_count).length = prm.voice_count := by
      rw [List.length_take]
      omega
    have hpos : position Option.isNone (s.voices.take prm.voice_count) = none := by
      cases hp : position Option.isNone (s.voices.take prm.voice_count) with
      | none => rfl
      | some i =>
        obtain ⟨hlt, hget⟩ := position_eq_some _ _ _ hp
        rw [htlen] at hlt
        have h1 := hget none
        rw [getD_take _ _ _ _ hlt] at h1
        have h2 := hocc i hlt
        rw [Option.isNone_iff_eq_none.mp h1] at h2
        simp at h2
    rcases start_voice_cases P prm s off vid ch nt with
      ⟨i, hp, _⟩ | ⟨j, k, old, _, harg, hold, heq⟩ | ⟨_, _, hrest⟩
    · rw [hp] at hpos; cases hpos
    · obtain ⟨⟨hjb', hkey⟩, hmin⟩ := argmin_key_spec steal_key _ j k harg
      rw [htlen] at hjb'
      refine ⟨j, old, hjb', hold, ?_, ?_, ?_⟩
      · rw [heq]
      · rw [heq]
      · intro m u hm hu
        have hkj : old.internal_voice_id = k := by
          have h1 := hkey none
          rw [getD_take _ _ _ _ hjb', hold] at h1
          simpa [steal_key] using h1
        have hmem : some u ∈ s.voices.take prm.voice_count := by
          have h1 : (s.voices.take prm.voice_count).getD m none = some u := by
            rw [getD_take _ _ _ _ hm, hu]
          have h2 : m < (s.voices.take prm.voice_count).length := by rw [htlen]; exact hm
          have h3 : (s.voices.take prm.voice_count)[m]? = some (some u) := by
            rw [List.getElem?_eq_getElem h2]
            rw [List.getD_eq_getElem?_getD, List.getElem?_eq_getElem h2] at h1
            simp only [Option.getD_some] at h1
            rw [h1]
          exact List.getElem?_mem h3
        have h4 := hmin (some u) hmem
        rw [hkj]
        simpa [steal_key] using h4
    · rcases hrest with ⟨j, k, harg, hold⟩ | harg
      · obtain ⟨⟨hjb', _⟩, _⟩ := argmin_key_spec steal_key _ j k harg
        rw [htlen] at hjb'
        have h2 := hocc j hjb'
        rw [hold] at h2
        simp at h2
      · have hne : s.voices.take prm.voice_count ≠ [] := by
          intro hnil
          rw [hnil] at htlen
          simp at htlen
          omega
        obtain ⟨x, xs, hx⟩ := List.exists_cons_of_ne_nil hne
        rw [hx] at harg
        exact absurd harg (argmin_key_ne_none steal_key x xs)

set_option maxRecDepth 8000 in
/-- Evaluation witness for the voice-count bound and the stealing rule: with a
limit of 2 and both of the first two slots occupied, a further note-on steals
the slot whose voice holds the minimal internal sequence number. -/
theorem voice_count_and_stealing_witness :
    occupied_count (apply_note_ons P_ex prm_ex
        [(0, none, 0, 60), (0, none, 0, 64), (0, none, 0, 67)] init_state).voices ≤
      prm_ex.voice_count ∧
    (1 ≤ prm_ex.voice_count ∧ prm_ex.voice_count ≤ two_voice_state.voices.length ∧
      (∀ i, i < prm_ex.voice_count → (two_voice_state.voices.getD i none).isSome = true)) ∧
    (∃ j old, j < prm_ex.voice_count ∧ two_voice_state.voices.getD j none = some old ∧
       (start_voice P_ex prm_ex two_voice_state 0 none 0 72).2.1 =
         [{ timing := 0, voice_id := old.id, channel := old.channel, note := old.note }] ∧
       (start_voice P_ex prm_ex two_voice_state 0 none 0 72).1.voices =
         two_voice_state.voices.set j (some (new_voice P_ex two_voice_state none 0 72)) ∧
       (∀ m u, m < prm_ex.voice_count → two_voice_state.voices.getD m none = some u →
          old.internal_voice_id ≤ u.internal_voice_id)) :=
  ⟨(voice_count_and_stealing P_ex prm_ex).1 _,
   ⟨by decide, by decide, by decide⟩,
   (voice_count_and_stealing P_ex prm_ex).2 two_voice_state 0 none 0 72
     (by decide) (by decide) (by decide)⟩

theorem terminate_finished_spec (block_end : Nat) :
    ∀ l : List (Option Voice),
      (terminate_finished block_end l).2 =
        (freed_voices l (terminate_finished block_end l).1).map
          (fun v => { timing := block_end, voice_id := v.id,
                      channel := v.channel, note := v.note }) ∧
      (∀ v ∈ freed_voices l (terminate_finished block_end l).1,
         (v.releasing && decide (v.amp_envelope.current = 0)) = true) ∧
      (∀ i, (terminate_finished block_end l).1.getD i none = l.getD i none ∨
            (terminate_finished block_end l).1.getD i none = none) ∧
      (∀ i v, l.getD i none = some v →
         (v.releasing && decide (v.amp_envelope.current = 0)) = true →
         (terminate_finished block_end l).1.getD i none = none) ∧
      (terminate_finished block_end l).1.length = l.length := by
  intro l
  induction l with
  | nil =>
    refine ⟨rfl, ?_, ?_, ?_, rfl⟩
    · intro v hv; cases hv
    · intro i; left; rfl
    · intro i v hv; simp at hv
  | cons ov rest ih =>
    obtain ⟨ih1, ih2, ih3, ih4, ih5⟩ := ih
    cases ov with
    | none =>
      have heq : terminate_finished block_end (none :: rest) =
          (none :: (terminate_finished block_end rest).1,
           (terminate_finished block_end rest).2) := rfl
      rw [heq]
      refine ⟨?_, ?_, ?_, ?_, ?_⟩
      · rw [freed_voices_cons_same]; exact ih1
      · intro v hv; rw [freed_voices_cons_same] at hv; exact ih2 v hv
      · intro i
        cases i with
        | zero => left; rfl
        | succ i' => simpa using ih3 i'
      · intro i v hv hfin
        cases i with
        | zero => simp at hv
        | succ i' =>
          simp only [List.getD_cons_succ] at hv
          simpa using ih4 i' v hv hfin
      · simpa using ih5
    | some v =>
      by_cases hfin : (v.releasing && decide (v.amp_envelope.current = 0)) = true
      · have heq : terminate_finished block_end (some v :: rest) =
            (none :: (terminate_finished block_end rest).1,
             { timing := block_end, voice_id := v.id, channel := v.channel,
               note := v.note } :: (terminate_finished block_end rest).2) := by
          show (let r := terminate_finished block_end rest
            if v.releasing && decide (v.amp_envelope.current = 0) then
              (none :: r.1,
               ({ timing := block_end, voice_id := v.id, channel := v.channel,
                  note := v.note } : TermEvent) :: r.2)
            else (some v :: r.1, r.2)) = _
          rw [if_pos hfin]
        rw [heq]
        have hfv : freed_voices (some v :: rest)
            (none :: (terminate_finished block_end rest).1) =
            v :: freed_voices rest (terminate_finished block_end rest).1 := rfl
        refine ⟨?_, ?_, ?_, ?_, ?_⟩
        · rw [hfv, List.map_cons, ih1]
        · intro w hw
          rw [hfv] at hw
          rcases List.mem_cons.mp hw with hw | hw
          · subst hw; exact hfin
          · exact ih2 w hw
        · intro i
          cases i with
          | zero => right; rfl
          | succ i' => simpa using ih3 i'
        · intro i w hw hwf
          cases i with
          | zero => rfl
          | succ i' =>
            simp only [List.getD_cons_succ] at hw
            simpa using ih4 i' w hw hwf
        · simpa using ih5
      · have heq : terminate_finished block_end (some v :: rest) =
            (some v :: (terminate_finished block_end rest).1,
             (terminate_finished block_end rest).2) := by
          show (let r := terminate_finished block_end rest
            if v.releasing && decide (v.amp_envelope.current = 0) then
              (none :: r.1,
               ({ timing := block_end, voice_id := v.id, channel := v.channel,
                  note := v.note } : TermEvent) :: r.2)
            else (some v :: r.1, r.2)) = _
          rw [if_neg hfin]
        rw [heq]
        refine ⟨?_, ?_, ?_, ?_, ?_⟩
        · rw [freed_voices_cons_same]; exact ih1
        · intro w hw; rw [freed_voices_cons_same] at hw; exact ih2 w hw
        · intro i
          cases i with
          | zero => left; rfl
          | succ i' => simpa using ih3 i'
        · intro i w hw hwf
          cases i with
          | zero =>
            simp only [List.getD_cons_zero] at hw
            cases hw
            exact absurd hwf hfin
          | succ i' =>
            simp only [List.getD_cons_succ] at hw
            simpa using ih4 i' w hw hwf
        · simpa using ih5

set_option maxRecDepth 8000 in
/-- C4 counterexample: `reset` frees the occupied slot 0 of the two-voice state
while emitting no voice-terminated notification at all. -/
theorem reset_no_notification_cex :
    (two_voice_state.voices.getD 0 none).isSome = true ∧
    (reset two_voice_state).1.voices.getD 0 none = none ∧
    (reset two_voice_state).2 = [] := by
  decide

/-- C4 amended: along the audio-processing paths — choke, release completion,
and stealing — every destruction of an active voice emits exactly one
voice-terminated notification carrying that voice's stored identity (one event
per freed slot, in slot order), and a note-on that finds a free slot destroys
nothing and emits nothing; but besides initial allocation there is a second
notification-free path: the plugin's `reset` clears every voice slot and emits
no notification (it has no channel to the host's event queue). -/
theorem destruction_notifications (P : Primitives) (prm : Params) :
    (∀ s : EngineState, (reset s).2 = [] ∧
       ∀ i, (reset s).1.voices.getD i none = none) ∧
    (∀ (s : EngineState) (off : Nat) (vid : Option Int) (ch nt : Nat),
       (choke_voices s off vid ch nt).2 =
         (freed_voices s.voices (choke_voices s off vid ch nt).1.voices).map
           (fun v => { timing := off, voice_id := v.id, channel := ch, note := nt })) ∧
    (∀ (be : Nat) (l : List (Option Voice)),
       (terminate_finished be l).2 =
         (freed_voices l (terminate_finished be l).1).map
           (fun v => { timing := be, voice_id := v.id, channel := v.channel,
                       note := v.note })) ∧
    (∀ (s : EngineState) (off : Nat) (vid : Option Int) (ch nt : Nat),
       (∃ i, s.voices.getD i none = none ∧
          (start_voice P prm s off vid ch nt).2.1 = [] ∧
          (start_voice P prm s off vid ch nt).1.voices =
            s.voices.set i (some (new_voice P s vid ch nt))) ∨
       (∃ j old, s.voices.getD j none = some old ∧
          (start_voice P prm s off vid ch nt).2.1 =
            [{ timing := off, voice_id := old.id, channel := old.channel,
               note := old.note }] ∧
          (start_voice P prm s off vid ch nt).1.voices =
            s.voices.set j (some (new_voice P s vid ch nt))) ∨
       ((start_voice P prm s off vid ch nt).2.1 = [] ∧
        (start_voice P prm s off vid ch nt).1.voices = s.voices)) := by
  refine ⟨?_, ?_, ?_, ?_⟩
  · intro s
    refine ⟨rfl, ?_⟩
    intro i
    show (s.voices.map (fun _ => none)).getD i none = none
    rw [List.getD_eq_getElem?_getD, List.getElem?_map]
    cases s.voices[i]? <;> rfl
  · intro s off vid ch nt
    exact (choke_loop_spec off vid ch nt s.voices (match_limit vid)).1
  · intro be l
    exact (terminate_finished_spec be l).1
  · intro s off vid ch nt
    rcases start_voice_cases P prm s off vid ch nt with
      ⟨i, hp, heq⟩ | ⟨j, k, old, _, _, hold, heq⟩ | ⟨hv, he, _⟩
    · left
      obtain ⟨hlt, hget⟩ := position_eq_some _ _ _ hp
      have hvc : i < prm.voice_count := by
        rw [List.length_take] at hlt
        exact lt_of_lt_of_le hlt (min_le_left _ _)
      refine ⟨i, ?_, ?_, ?_⟩
      · have h1 := hget none
        rw [getD_take _ _ _ _ hvc] at h1
        exact Option.isNone_iff_eq_none.mp h1
      · rw [heq]
      · rw [heq]
    · right; left
      exact ⟨j, old, hold, by rw [heq], by rw [heq]⟩
    · right; right
      exact ⟨he, hv⟩

set_option maxRecDepth 8000 in
/-- Evaluation witness for the choke semantics: a choke with the unmatched
explicit id 12345 frees slot 0 (a (channel, note) match) and its notification
carries that voice's stored id 99, not 12345. -/
theorem choke_voices_spec_witness :
    (choke_voices two_voice_state 7 (some 12345) 0 60).2 =
      (freed_voices two_voice_state.voices
          (choke_voices two_voice_state 7 (some 12345) 0 60).1.voices).map
        (fun v => { timing := 7, voice_id := v.id, channel := 0, note := 60 }) ∧
    voice_a ∈ freed_voices two_voice_state.voices
        (choke_voices two_voice_state 7 (some 12345) 0 60).1.voices ∧
    voice_matches (some 12345) 0 60 voice_a = true ∧
    ((choke_voices two_voice_state 7 (some 12345) 0 60).1.voices.getD 0 none =
        two_voice_state.voices.getD 0 none ∨
     (choke_voices two_voice_state 7 (some 12345) 0 60).1.voices.getD 0 none = none) :=
  ⟨(choke_voices_spec two_voice_state 7 (some 12345) 0 60).1,
   by decide,
   (choke_voices_spec two_voice_state 7 (some 12345) 0 60).2.1 voice_a (by decide),
   (choke_voices_spec two_voice_state 7 (some 12345) 0 60).2.2 0⟩

/-- The Nyquist safety guard of the filter-band loop: the band is skipped when
the safety switch is on and the band frequency reaches half the sample rate. -/
def band_skipped (prm : Params) (sample_rate vfreq : ℚ) (filter_idx : Nat) : Bool :=
  prm.safety_switch && decide (sample_rate / 2 ≤ vfreq * ((filter_idx : ℚ) + 1))

theorem filter_step_skipped (P : Primitives) (prm : Params) (sr vfreq amp : ℚ)
    (i : Nat) (f : GenericSVF) (sample : Sample)
    (h : band_skipped prm sr vfreq i = true) :
    filter_step P prm sr vfreq amp i f sample = (f, sample) := by
  show (if prm.safety_switch && decide (sr / 2 ≤ vfreq * ((i : ℚ) + 1)) then (f, sample)
    else configure_and_process P prm sr vfreq amp (vfreq * ((i : ℚ) + 1)) f sample) =
    (f, sample)
  have h' : (prm.safety_switch && decide (sr / 2 ≤ vfreq * ((i : ℚ) + 1))) = true := h
  rw [h']
  simp

theorem filter_step_active (P : Primitives) (prm : Params) (sr vfreq amp : ℚ)
    (i : Nat) (f : GenericSVF) (sample : Sample)
    (h : band_skipped prm sr vfreq i = false) :
    filter_step P prm sr vfreq amp i f sample =
      configure_and_process P prm sr vfreq amp (vfreq * ((i : ℚ) + 1)) f sample := by
  show (if prm.safety_switch && decide (sr / 2 ≤ vfreq * ((i : ℚ) + 1)) then (f, sample)
    else configure_and_process P prm sr vfreq amp (vfreq * ((i : ℚ) + 1)) f sample) = _
  have h' : (prm.safety_switch && decide (sr / 2 ≤ vfreq * ((i : ℚ) + 1))) = false := h
  rw [h']
  simp

theorem process_filters_cons (P : Primitives) (prm : Params) (sr vfreq amp : ℚ)
    (i : Nat) (f : GenericSVF) (fs : List GenericSVF) (sample : Sample) :
    process_filters P prm sr vfreq amp i (f :: fs) sample =
      ((filter_step P prm sr vfreq amp i f sample).1 ::
        (process_filters P prm sr vfreq amp (i + 1) fs
          (filter_step P prm sr vfreq amp i f sample).2).1,
       (process_filters P prm sr vfreq amp (i + 1) fs
         (filter_step P prm sr vfreq amp i f sample).2).2) := rfl

theorem process_filters_length (P : Primitives) (prm : Params) (sr vfreq amp : ℚ) :
    ∀ (fs : List GenericSVF) (i : Nat) (sample : Sample),
      (process_filters P prm sr vfreq amp i fs sample).1.length = fs.length := by
  intro fs
  induction fs with
  | nil => intro i sample; rfl
  | cons f fs ih =>
    intro i sample
    rw [process_filters_cons]
    simpa using ih (i + 1) _

theorem process_filters_skipped (P : Primitives) (prm : Params) (sr vfreq amp : ℚ) :
    ∀ (fs : List GenericSVF) (i : Nat) (sample : Sample) (j : Nat),
      band_skipped prm sr vfreq (i + j) = true → j < fs.length →
      (process_filters P prm sr vfreq amp i fs sample).1.getD j default_svf =
        fs.getD j default_svf := by
  intro fs
  induction fs with
  | nil => intro i sample j _ h; simp at h
  | cons f fs ih =>
    intro i sample j hskip hj
    rw [process_filters_cons]
    cases j with
    | zero =>
      have h0 : band_skipped prm sr vfreq i = true := by simpa using hskip
      rw [List.getD_cons_zero, List.getD_cons_zero,
        filter_step_skipped P prm sr vfreq amp i f sample h0]
    | succ j' =>
      rw [List.getD_cons_succ, List.getD_cons_succ]
      have hskip' : band_skipped prm sr vfreq (i + 1 + j') = true := by
        have harith : i + 1 + j' = i + (j' + 1) := by omega
        rw [harith]; exact hskip
      exact ih (i + 1) _ j' hskip' (by simpa using hj)

/-- The filter bank restricted to explicitly listed band indices, with no skip
guard: every listed band is reconfigured and processed, in series. -/
def process_active (P : Primitives) (prm : Params) (sr vfreq amp : ℚ) :
    List (Nat × GenericSVF) → Sample → List (Nat × GenericSVF) × Sample
  | [], sample => ([], sample)
  | (i, f) :: fs, sample =>
    let r1 := configure_and_process P prm sr vfreq amp (vfreq * ((i : ℚ) + 1)) f sample
    let r2 := process_active P prm sr vfreq amp fs r1.2
    ((i, r1.1) :: r2.1, r2.2)

theorem process_filters_filtered (P : Primitives) (prm : Params) (sr vfreq amp : ℚ) :
    ∀ (fs : List GenericSVF) (i : Nat) (sample : Sample),
      (process_filters P prm sr vfreq amp i fs sample).2 =
        (process_active P prm sr vfreq amp
          ((List.enumFrom i fs).filter (fun p => !band_skipped prm sr vfreq p.1))
          sample).2 ∧
      (List.enumFrom i (process_filters P prm sr vfreq amp i fs sample).1).filter
          (fun p => !band_skipped prm sr vfreq p.1) =
        (process_active P prm sr vfreq amp
          ((List.enumFrom i fs).filter (fun p => !band_skipped prm sr vfreq p.1))
          sample).1 := by
  intro fs
  induction fs with
  | nil => intro i sample; exact ⟨rfl, rfl⟩
  | cons f fs ih =>
    intro i sample
    rw [process_filters_cons]
    cases hskip : band_skipped prm sr vfreq i with
    | true =>
      rw [filter_step_skipped P prm sr vfreq amp i f sample hskip]
      have hfil : (List.enumFrom i (f :: fs)).filter
          (fun p => !band_skipped prm sr vfreq p.1) =
          (List.enumFrom (i + 1) fs).filter (fun p => !band_skipped prm sr vfreq p.1) := by
        rw [List.enumFrom_cons, List.filter_cons]
        simp [hskip]
      obtain ⟨ih1, ih2⟩ := ih (i + 1) sample
      refine ⟨?_, ?_⟩
      · rw [hfil]; exact ih1
      · rw [hfil, List.enumFrom_cons, List.filter_cons]
        simp only [hskip, Bool.not_true, Bool.false_eq_true, if_false]
        exact ih2
    | false =>
      rw [filter_step_active P prm sr vfreq amp i f sample hskip]
      have hfil : (List.enumFrom i (f :: fs)).filter
          (fun p => !band_skipped prm sr vfreq p.1) =
          (i, f) :: (List.enumFrom (i + 1) fs).filter
            (fun p => !band_skipped prm sr vfreq p.1) := by
        rw [List.enumFrom_cons, List.filter_cons]
        simp [hskip]
      obtain ⟨ih1, ih2⟩ := ih (i + 1)
        (configure_and_process P prm sr vfreq amp (vfreq * ((i : ℚ) + 1)) f sample).2
      refine ⟨?_, ?_⟩
      · rw [hfil]
        show _ = (process_active P prm sr vfreq amp ((i, f) :: _) sample).2
        rw [show process_active P prm sr vfreq amp ((i, f) ::
            (List.enumFrom (i + 1) fs).filter (fun p => !band_skipped prm sr vfreq p.1))
            sample =
            ((i, (configure_and_process P prm sr vfreq amp (vfreq * ((i : ℚ) + 1)) f
                sample).1) ::
              (process_active P prm sr vfreq amp
                ((List.enumFrom (i + 1) fs).filter (fun p => !band_skipped prm sr vfreq p.1))
                (configure_and_process P prm sr vfreq amp (vfreq * ((i : ℚ) + 1)) f
                  sample).2).1,
             (process_active P prm sr vfreq amp
               ((List.enumFrom (i + 1) fs).filter (fun p => !band_skipped prm sr vfreq p.1))
               (configure_and_process P prm sr vfreq amp (vfreq * ((i : ℚ) + 1)) f
                 sample).2).2) from rfl]
        exact ih1
      · rw [hfil, List.enumFrom_cons, List.filter_cons]
        simp only [hskip, Bool.not_false, if_true]
        rw [show process_active P prm sr vfreq amp ((i, f) ::
            (List.enumFrom (i + 1) fs).filter (fun p => !band_skipped prm sr vfreq p.1))
            sample =
            ((i, (configure_and_process P prm sr vfreq amp (vfreq * ((i : ℚ) + 1)) f
                sample).1) ::
              (process_active P prm sr vfreq amp
                ((List.enumFrom (i + 1) fs).filter (fun p => !band_skipped prm sr vfreq p.1))
                (configure_and_process P prm sr vfreq amp (vfreq * ((i : ℚ) + 1)) f
                  sample).2).1,
             (process_active P prm sr vfreq amp
               ((List.enumFrom (i + 1) fs).filter (fun p => !band_skipped prm sr vfreq p.1))
               (configure_and_process P prm sr vfreq amp (vfreq * ((i : ℚ) + 1)) f
                 sample).2).2) from rfl]
        rw [List.cons.injEq]
        exact ⟨rfl, ih2⟩

theorem voice_sample_fold_invariants (P : Primitives) (prm : Params) (sr : ℚ)
    (gain env_values : List ℚ) (bs : Nat) :
    ∀ (ks : List Nat) (acc : Voice × List Sample),
      ((ks.foldl (voice_sample_step P prm sr gain env_values bs) acc).1.frequency =
         acc.1.frequency) ∧
      ((ks.foldl (voice_sample_step P prm sr gain env_values bs) acc).1.filters.length =
         acc.1.filters.length) ∧
      (∀ j, band_skipped prm sr acc.1.frequency j = true → j < acc.1.filters.length →
        (ks.foldl (voice_sample_step P prm sr gain env_values bs) acc).1.filters.getD j
            default_svf =
          acc.1.filters.getD j default_svf) := by
  intro ks
  induction ks with
  | nil => intro acc; exact ⟨rfl, rfl, fun j _ _ => rfl⟩
  | cons k ks ih =>
    intro acc
    obtain ⟨ih1, ih2, ih3⟩ := ih (voice_sample_step P prm sr gain env_values bs acc k)
    have hfreq : (voice_sample_step P prm sr gain env_values bs acc k).1.frequency =
        acc.1.frequency := rfl
    have hlen : (voice_sample_step P prm sr gain env_values bs acc k).1.filters.length =
        acc.1.filters.length := by
      show (process_filters P prm sr acc.1.frequency
        (gain.getD k 0 * acc.1.velocity_sqrt * env_values.getD k 0) 0 acc.1.filters
        (acc.2.getD (bs + k) (0, 0))).1.length = acc.1.filters.length
      exact process_filters_length P prm sr _ _ acc.1.filters 0 _
    refine ⟨?_, ?_, ?_⟩
    · rw [List.foldl_cons, ih1, hfreq]
    · rw [List.foldl_cons, ih2, hlen]
    · intro j hj hjlen
      have hstep : (voice_sample_step P prm sr gain env_values bs acc k).1.filters.getD j
          default_svf = acc.1.filters.getD j default_svf := by
        show (process_filters P prm sr acc.1.frequency
          (gain.getD k 0 * acc.1.velocity_sqrt * env_values.getD k 0) 0 acc.1.filters
          (acc.2.getD (bs + k) (0, 0))).1.getD j default_svf =
          acc.1.filters.getD j default_svf
        refine process_filters_skipped P prm sr acc.1.frequency _ acc.1.filters 0 _ j
          ?_ hjlen
        rw [Nat.zero_add]
        exact hj
      rw [List.foldl_cons]
      rw [ih3 j (by rw [hfreq]; exact hj) (by rw [hlen]; exact hjlen), hstep]

/-- C6: with the safety limit enabled, a filter band whose frequency
`voice.frequency * (band_idx + 1)` reaches or exceeds half the sample rate is
left completely untouched over the whole sub-block — its filter (configuration
and both state registers) is unchanged and the running sample passes it
unmodified — while the bank behaves exactly as if only the sub-Nyquist bands
existed: those are reconfigured (bell or notch, with the current Q and the
exponential band-falloff gain, inside `configure_and_process`) and applied to
the sample in series. -/
theorem nyquist_band_safety (P : Primitives) (prm : Params) (sr vfreq amp : ℚ)
    (hs : prm.safety_switch = true) :
    (∀ (fs : List GenericSVF) (sample : Sample) (j : Nat),
       sr / 2 ≤ vfreq * ((j : ℚ) + 1) → j < fs.length →
       (process_filters P prm sr vfreq amp 0 fs sample).1.getD j default_svf =
         fs.getD j default_svf) ∧
    (∀ (fs : List GenericSVF) (i : Nat) (sample : Sample),
       (process_filters P prm sr vfreq amp i fs sample).2 =
         (process_active P prm sr vfreq amp
           ((List.enumFrom i fs).filter (fun p => !band_skipped prm sr vfreq p.1))
           sample).2) ∧
    (∀ (gain env_values : List ℚ) (bs len : Nat) (v : Voice) (out : List Sample) (j : Nat),
       v.frequency = vfreq → sr / 2 ≤ vfreq * ((j : ℚ) + 1) → j < v.filters.length →
       (process_voice_samples P prm sr gain env_values bs len v out).1.filters.getD j
           default_svf = v.filters.getD j default_svf) := by
  have hbs : ∀ j : Nat, sr / 2 ≤ vfreq * ((j : ℚ) + 1) →
      band_skipped prm sr vfreq j = true := by
    intro j hj
    simp [band_skipped, hs, hj]
  refine ⟨?_, ?_, ?_⟩
  · intro fs sample j hj hjlen
    refine process_filters_skipped P prm sr vfreq amp fs 0 sample j ?_ hjlen
    rw [Nat.zero_add]
    exact hbs j hj
  · intro fs i sample
    exact (process_filters_filtered P prm sr vfreq amp fs i sample).1
  · intro gain env_values bs len v out j hfreq hj hjlen
    have hmatch : band_skipped prm sr (v, out).1.frequency j = true := by
      show band_skipped prm sr v.frequency j = true
      rw [hfreq]
      exact hbs j hj
    exact (voice_sample_fold_invariants P prm sr gain env_values bs
      (List.range len) (v, out)).2.2 j hmatch hjlen

/-- A concrete voice with fundamental 15000 Hz, used by the Nyquist witness. -/
def voice_c : Voice := { voice_a with frequency := 15000 }

/-- Evaluation witness for the Nyquist safety guard at the spec's scenario:
sample rate 44100, fundamental 15000, band index 1 (band frequency 30000 above
Nyquist 22050) is untouched, both for a single sample and across a sub-block. -/
theorem nyquist_band_safety_witness :
    prm_ex.safety_switch = true ∧
    ((44100 : ℚ) / 2 ≤ 15000 * (((1 : Nat) : ℚ) + 1) ∧
      (1 : Nat) < (List.replicate 8 default_svf).length) ∧
    (process_filters P_ex prm_ex 44100 15000 1 0 (List.replicate 8 default_svf)
        (1, 1)).1.getD 1 default_svf =
      (List.replicate 8 default_svf).getD 1 default_svf ∧
    (process_voice_samples P_ex prm_ex 44100 [1, 1] [1, 1] 0 2 voice_c
        [(1, 1), (1, 1)]).1.filters.getD 1 default_svf =
      voice_c.filters.getD 1 default_svf :=
  ⟨rfl, ⟨by norm_num, by norm_num⟩,
   (nyquist_band_safety P_ex prm_ex 44100 15000 1 rfl).1 (List.replicate 8 default_svf)
     (1, 1) 1 (by norm_num) (by norm_num),
   (nyquist_band_safety P_ex prm_ex 44100 15000 1 rfl).2.2 [1, 1] [1, 1] 0 2 voice_c
     [(1, 1), (1, 1)] 1 rfl (by norm_num) (by norm_num [voice_c, voice_a, NUM_FILTERS])⟩

theorem process_events_cons_apply (P : Primitives) (prm : Params) (sr : ℚ) (bs : Nat)
    (e : NEvent) (rest : List NEvent) (be : Nat) (s : EngineState) (h : e.timing ≤ bs) :
    process_events P prm sr bs (e :: rest) be s =
      ((process_events P prm sr bs rest be (apply_event P prm sr s e).1).1,
       (process_events P prm sr bs rest be (apply_event P prm sr s e).1).2.1,
       (process_events P prm sr bs rest be (apply_event P prm sr s e).1).2.2.1,
       (apply_event P prm sr s e).2 ++
         (process_events P prm sr bs rest be (apply_event P prm sr s e).1).2.2.2.1,
       (e, bs) ::
         (process_events P prm sr bs rest be (apply_event P prm sr s e).1).2.2.2.2) := by
  simp only [process_events]
  rw [if_pos h]

theorem process_events_cons_shorten (P : Primitives) (prm : Params) (sr : ℚ) (bs : Nat)
    (e : NEvent) (rest : List NEvent) (be : Nat) (s : EngineState)
    (h1 : ¬ e.timing ≤ bs) (h2 : e.timing < be) :
    process_events P prm sr bs (e :: rest) be s = (e :: rest, e.timing, s, [], []) := by
  simp only [process_events]
  rw [if_neg h1, if_pos h2]

theorem process_events_cons_keep (P : Primitives) (prm : Params) (sr : ℚ) (bs : Nat)
    (e : NEvent) (rest : List NEvent) (be : Nat) (s : EngineState)
    (h1 : ¬ e.timing ≤ bs) (h2 : ¬ e.timing < be) :
    process_events P prm sr bs (e :: rest) be s = (e :: rest, be, s, [], []) := by
  simp only [process_events]
  rw [if_neg h1, if_neg h2]

theorem process_events_be (P : Primitives) (prm : Params) (sr : ℚ) (bs : Nat) :
    ∀ (q : List NEvent) (be : Nat) (s : EngineState),
      (process_events P prm sr bs q be s).2.1 ≤ be ∧
      (bs < be → bs < (process_events P prm sr bs q be s).2.1) := by
  intro q
  induction q with
  | nil => intro be s; exact ⟨le_refl _, id⟩
  | cons e rest ih =>
    intro be s
    by_cases h1 : e.timing ≤ bs
    · rw [process_events_cons_apply P prm sr bs e rest be s h1]
      exact ih be _
    · by_cases h2 : e.timing < be
      · rw [process_events_cons_shorten P prm sr bs e rest be s h1 h2]
        exact ⟨le_of_lt h2, fun _ => Nat.lt_of_not_le h1⟩
      · rw [process_events_cons_keep P prm sr bs e rest be s h1 h2]
        exact ⟨le_refl _, id⟩

theorem process_events_applied (P : Primitives) (prm : Params) (sr : ℚ) (bs : Nat) :
    ∀ (q : List NEvent) (be : Nat) (s : EngineState),
      ∀ pr ∈ (process_events P prm sr bs q be s).2.2.2.2, pr.2 = bs ∧ pr.1.timing ≤ bs := by
  intro q
  induction q with
  | nil => intro be s pr hpr; cases hpr
  | cons e rest ih =>
    intro be s pr hpr
    by_cases h1 : e.timing ≤ bs
    · rw [process_events_cons_apply P prm sr bs e rest be s h1] at hpr
      rcases List.mem_cons.mp hpr with hpr | hpr
      · subst hpr; exact ⟨rfl, h1⟩
      · exact ih be _ pr hpr
    · by_cases h2 : e.timing < be
      · rw [process_events_cons_shorten P prm sr bs e rest be s h1 h2] at hpr
        cases hpr
      · rw [process_events_cons_keep P prm sr bs e rest be s h1 h2] at hpr
        cases hpr

theorem process_events_queue_sub (P : Primitives) (prm : Params) (sr : ℚ) (bs : Nat) :
    ∀ (q : List NEvent) (be : Nat) (s : EngineState),
      ∀ e ∈ (process_events P prm sr bs q be s).1, e ∈ q := by
  intro q
  induction q with
  | nil => intro be s e he; cases he
  | cons e rest ih =>
    intro be s f hf
    by_cases h1 : e.timing ≤ bs
    · rw [process_events_cons_apply P prm sr bs e rest be s h1] at hf
      exact List.mem_cons_of_mem e (ih be _ f hf)
    · by_cases h2 : e.timing < be
      · rw [process_events_cons_shorten P prm sr bs e rest be s h1 h2] at hf
        exact hf
      · rw [process_events_cons_keep P prm sr bs e rest be s h1 h2] at hf
        exact hf

theorem release_loop_all_free (release : ℚ) (voice_id : Option Int) (channel note : Nat) :
    ∀ (l : List (Option Voice)) (limit : Nat), (∀ ov ∈ l, ov = none) →
      release_loop release voice_id channel note limit l = l := by
  intro l
  induction l with
  | nil => intro limit _; cases limit <;> rfl
  | cons ov rest ih =>
    intro limit h
    have hov : ov = none := h ov (List.mem_cons_self _ _)
    subst hov
    have hrest : ∀ ov ∈ rest, ov = none := fun ov hov => h ov (List.mem_cons_of_mem _ hov)
    cases limit with
    | zero => rfl
    | succ m =>
      show none :: release_loop release voice_id channel note (m + 1) rest = none :: rest
      rw [ih (m + 1) hrest]

theorem choke_loop_all_free (timing : Nat) (voice_id : Option Int) (channel note : Nat) :
    ∀ (l : List (Option Voice)) (limit : Nat), (∀ ov ∈ l, ov = none) →
      choke_loop timing voice_id channel note limit l = (l, []) := by
  intro l
  induction l with
  | nil => intro limit _; cases limit <;> rfl
  | cons ov rest ih =>
    intro limit h
    have hov : ov = none := h ov (List.mem_cons_self _ _)
    subst hov
    have hrest : ∀ ov ∈ rest, ov = none := fun ov hov => h ov (List.mem_cons_of_mem _ hov)
    cases limit with
    | zero => rfl
    | succ m =>
      have hm : ((none : Option Voice).map (voice_matches voice_id channel note)).getD false =
          false := rfl
      have heq : choke_loop timing voice_id channel note (m + 1) (none :: rest) =
          ((none : Option Voice) :: (choke_loop timing voice_id channel note (m + 1) rest).1,
           (choke_loop timing voice_id channel note (m + 1) rest).2) := by
        simp [choke_loop, hm]
      rw [heq, ih (m + 1) hrest]

theorem retune_loop_all_free (P : Primitives) (voice_id : Option Int) (channel note : Nat)
    (tuning : ℚ) :
    ∀ (l : List (Option Voice)), (∀ ov ∈ l, ov = none) →
      retune_loop P voice_id channel note tuning l = l := by
  intro l
  induction l with
  | nil => intro _; rfl
  | cons ov rest ih =>
    intro h
    have hov : ov = none := h ov (List.mem_cons_self _ _)
    subst hov
    show none :: retune_loop P voice_id channel note tuning rest = none :: rest
    rw [ih (fun ov hov => h ov (List.mem_cons_of_mem _ hov))]

theorem terminate_finished_all_free (block_end : Nat) :
    ∀ (l : List (Option Voice)), (∀ ov ∈ l, ov = none) →
      terminate_finished block_end l = (l, []) := by
  intro l
  induction l with
  | nil => intro _; rfl
  | cons ov rest ih =>
    intro h
    have hov : ov = none := h ov (List.mem_cons_self _ _)
    subst hov
    have heq : terminate_finished block_end ((none : Option Voice) :: rest) =
        ((none : Option Voice) :: (terminate_finished block_end rest).1,
         (terminate_finished block_end rest).2) := rfl
    rw [heq, ih (fun ov hov => h ov (List.mem_cons_of_mem _ hov))]

theorem apply_event_all_free (P : Primitives) (prm : Params) (sr : ℚ) (s : EngineState)
    (e : NEvent) (hne : e.isNoteOn = false) (hf : ∀ ov ∈ s.voices, ov = none) :
    (apply_event P prm sr s e).1.voices = s.voices := by
  cases e with
  | noteOn t vid ch nt vel => simp [NEvent.isNoteOn] at hne
  | noteOff t vid ch nt vel =>
    show release_loop prm.release vid ch nt (match_limit vid) s.voices = s.voices
    exact release_loop_all_free _ _ _ _ s.voices _ hf
  | choke t vid ch nt =>
    show (choke_loop t vid ch nt (match_limit vid) s.voices).1 = s.voices
    rw [choke_loop_all_free t vid ch nt s.voices _ hf]
  | polyTuning t vid ch nt tun =>
    show retune_loop P vid ch nt tun s.voices = s.voices
    exact retune_loop_all_free P _ _ _ _ s.voices hf
  | other t => rfl

theorem process_events_all_free (P : Primitives) (prm : Params) (sr : ℚ) (bs : Nat) :
    ∀ (q : List NEvent) (be : Nat) (s : EngineState),
      (∀ e ∈ q, e.isNoteOn = false) → (∀ ov ∈ s.voices, ov = none) →
      ∀ ov ∈ (process_events P prm sr bs q be s).2.2.1.voices, ov = none := by
  intro q
  induction q with
  | nil => intro be s _ hf; exact hf
  | cons e rest ih =>
    intro be s hq hf
    by_cases h1 : e.timing ≤ bs
    · rw [process_events_cons_apply P prm sr bs e rest be s h1]
      refine ih be _ (fun f hfm => hq f (List.mem_cons_of_mem _ hfm)) ?_
      rw [apply_event_all_free P prm sr s e (hq e (List.mem_cons_self _ _)) hf]
      exact hf
    · by_cases h2 : e.timing < be
      · rw [process_events_cons_shorten P prm sr bs e rest be s h1 h2]
        exact hf
      · rw [process_events_cons_keep P prm sr bs e rest be s h1 h2]
        exact hf

theorem apply_delta_succ (dry : List Sample) (bs : Nat) (len : Nat) (out : List Sample) :
    apply_delta dry bs (len + 1) out =
      (apply_delta dry bs len out).set (bs + len)
        ((apply_delta dry bs len out).getD (bs + len) (0, 0) +
          dry.getD len (0, 0) * splat (-1)) := by
  show (List.range (len + 1)).foldl _ out = _
  rw [List.range_succ, List.foldl_append]
  rfl

theorem apply_delta_length (dry : List Sample) (bs : Nat) :
    ∀ (len : Nat) (out : List Sample), (apply_delta dry bs len out).length = out.length := by
  intro len
  induction len with
  | zero => intro out; rfl
  | succ n ih =>
    intro out
    rw [apply_delta_succ, List.length_set, ih]

theorem getD_eq_default_of_le (l : List α) (d : α) (n : Nat) (h : l.length ≤ n) :
    l.getD n d = d := by
  rw [List.getD_eq_getElem?_getD, List.getElem?_eq_none h]
  rfl

theorem apply_delta_getD (dry : List Sample) (bs : Nat) :
    ∀ (len : Nat) (out : List Sample) (i : Nat),
      (apply_delta dry bs len out).getD i (0, 0) =
        if bs ≤ i ∧ i < bs + len ∧ i < out.length then
          out.getD i (0, 0) + dry.getD (i - bs) (0, 0) * splat (-1)
        else out.getD i (0, 0) := by
  intro len
  induction len with
  | zero =>
    intro out i
    have h : ¬ (bs ≤ i ∧ i < bs + 0 ∧ i < out.length) := by omega
    rw [if_neg h]
    rfl
  | succ n ih =>
    intro out i
    rw [apply_delta_succ]
    by_cases hi : i = bs + n
    · subst hi
      by_cases hlen : bs + n < out.length
      · have hlen' : bs + n < (apply_delta dry bs n out).length := by
          rw [apply_delta_length]; exact hlen
        rw [getD_set_self _ _ _ _ hlen']
        have hinner := ih out (bs + n)
        rw [if_neg (by omega)] at hinner
        rw [hinner]
        rw [if_pos (by omega)]
        have harith : bs + n - bs = n := by omega
        rw [harith]
      · rw [getD_eq_default_of_le _ _ _
          (by rw [List.length_set, apply_delta_length]; omega)]
        rw [if_neg (by omega)]
        rw [getD_eq_default_of_le _ _ _ (by omega)]
    · rw [getD_set_ne _ _ _ _ _ (fun h => hi h.symm)]
      rw [ih out i]
      by_cases hc : bs ≤ i ∧ i < bs + n ∧ i < out.length
      · rw [if_pos hc, if_pos (by omega)]
      · rw [if_neg hc, if_neg (by omega)]

theorem process_voices_all_free (P : Primitives) (prm : Params) (sr : ℚ)
    (gain : List ℚ) (bs len : Nat) :
    ∀ (l : List (Option Voice)) (out : List Sample), (∀ ov ∈ l, ov = none) →
      process_voices P prm sr gain bs len l out = (l, out) := by
  intro l
  induction l with
  | nil => intro out _; rfl
  | cons ov rest ih =>
    intro out h
    have hov : ov = none := h ov (List.mem_cons_self _ _)
    subst hov
    show ((none : Option Voice) ::
        (process_voices P prm sr gain bs len rest out).1,
      (process_voices P prm sr gain bs len rest out).2) = _
    rw [ih out (fun ov hov => h ov (List.mem_cons_of_mem _ hov))]

theorem getD_range_map (f : Nat → Sample) (n k : Nat) :
    ((List.range n).map f).getD k (0, 0) = if k < n then f k else (0, 0) := by
  rw [List.getD_eq_getElem?_getD, List.getElem?_map]
  by_cases hk : k < n
  · rw [List.getElem?_range hk, if_pos hk]
    rfl
  · rw [if_neg hk]
    have : (List.range n)[k]? = none := by
      rw [List.getElem?_eq_none]
      rw [List.length_range]
      omega
    rw [this]
    rfl

theorem process_sub_block_all_free (P : Primitives) (prm : Params) (sr : ℚ)
    (s : EngineState) (out : List Sample) (bs be : Nat)
    (hf : ∀ ov ∈ s.voices, ov = none) (hd : prm.delta = true) (hbe : be ≤ out.length) :
    (process_sub_block P prm sr s out bs be).1.voices = s.voices ∧
    (process_sub_block P prm sr s out bs be).2.length = out.length ∧
    (∀ i, (process_sub_block P prm sr s out bs be).2.getD i (0, 0) =
      if bs ≤ i ∧ i < be then (0, 0) else out.getD i (0, 0)) := by
  have hpv := process_voices_all_free P prm sr
    ((List.range (be - bs)).map (fun k => prm.gain_at (bs + k))) bs (be - bs) s.voices out hf
  have heq : process_sub_block P prm sr s out bs be =
      ({ s with voices := s.voices },
       apply_delta ((List.range (be - bs)).map (fun k => out.getD (bs + k) (0, 0))) bs
         (be - bs) out) := by
    simp only [process_sub_block, hpv, hd, if_true]
  rw [heq]
  refine ⟨rfl, apply_delta_length _ _ _ _, ?_⟩
  intro i
  rw [apply_delta_getD]
  by_cases hc : bs ≤ i ∧ i < bs + (be - bs) ∧ i < out.length
  · rw [if_pos hc, if_pos (by omega)]
    rw [getD_range_map]
    rw [if_pos (by omega)]
    have harith : bs + (i - bs) = i := by omega
    rw [harith]
    have hsp : splat (-1) = (-1 : ℚ × ℚ) := rfl
    rw [hsp]
    have hz : ∀ x : ℚ × ℚ, x + x * (-1) = ((0 : ℚ), (0 : ℚ)) := by
      intro x
      have : x + x * (-1) = 0 := by ring
      rw [this]
      rfl
    exact hz _
  · rw [if_neg hc, if_neg (by omega)]

theorem process_loop_succ_lt (P : Primitives) (prm : Params) (sr : ℚ) (N : Nat)
    (fuel : Nat) (q : List NEvent) (bs be : Nat) (s : EngineState) (out : List Sample)
    (h : bs < N) :
    process_loop P prm sr N (fuel + 1) q bs be s out =
      ((process_loop P prm sr N fuel (process_events P prm sr bs q be s).1
          (process_events P prm sr bs q be s).2.1
          (min ((process_events P prm sr bs q be s).2.1 + MAX_BLOCK_SIZE) N)
          { (process_sub_block P prm sr (process_events P prm sr bs q be s).2.2.1 out bs
              (process_events P prm sr bs q be s).2.1).1 with
            voices := (terminate_finished (process_events P prm sr bs q be s).2.1
              (process_sub_block P prm sr (process_events P prm sr bs q be s).2.2.1 out bs
                (process_events P prm sr bs q be s).2.1).1.voices).1 }
          (process_sub_block P prm sr (process_events P prm sr bs q be s).2.2.1 out bs
            (process_events P prm sr bs q be s).2.1).2).1,
       (process_loop P prm sr N fuel (process_events P prm sr bs q be s).1
          (process_events P prm sr bs q be s).2.1
          (min ((process_events P prm sr bs q be s).2.1 + MAX_BLOCK_SIZE) N)
          { (process_sub_block P prm sr (process_events P prm sr bs q be s).2.2.1 out bs
              (process_events P prm sr bs q be s).2.1).1 with
            voices := (terminate_finished (process_events P prm sr bs q be s).2.1
              (process_sub_block P prm sr (process_events P prm sr bs q be s).2.2.1 out bs
                (process_events P prm sr bs q be s).2.1).1.voices).1 }
          (process_sub_block P prm sr (process_events P prm sr bs q be s).2.2.1 out bs
            (process_events P prm sr bs q be s).2.1).2).2.1,
       (process_events P prm sr bs q be s).2.2.2.1 ++
         (terminate_finished (process_events P prm sr bs q be s).2.1
           (process_sub_block P prm sr (process_events P prm sr bs q be s).2.2.1 out bs
             (process_events P prm sr bs q be s).2.1).1.voices).2 ++
         (process_loop P prm sr N fuel (process_events P prm sr bs q be s).1
           (process_events P prm sr bs q be s).2.1
           (min ((process_events P prm sr bs q be s).2.1 + MAX_BLOCK_SIZE) N)
           { (process_sub_block P prm sr (process_events P prm sr bs q be s).2.2.1 out bs
               (process_events P prm sr bs q be s).2.1).1 with
             voices := (terminate_finished (process_events P prm sr bs q be s).2.1
               (process_sub_block P prm sr (process_events P prm sr bs q be s).2.2.1 out bs
                 (process_events P prm sr bs q be s).2.1).1.voices).1 }
           (process_sub_block P prm sr (process_events P prm sr bs q be s).2.2.1 out bs
             (process_events P prm sr bs q be s).2.1).2).2.2.1,
       (bs, (process_events P prm sr bs q be s).2.1) ::
         (process_loop P prm sr N fuel (process_events P prm sr bs q be s).1
           (process_events P prm sr bs q be s).2.1
           (min ((process_events P prm sr bs q be s).2.1 + MAX_BLOCK_SIZE) N)
           { (process_sub_block P prm sr (process_events P prm sr bs q be s).2.2.1 out bs
               (process_events P prm sr bs q be s).2.1).1 with
             voices := (terminate_finished (process_events P prm sr bs q be s).2.1
               (process_sub_block P prm sr (process_events P prm sr bs q be s).2.2.1 out bs
                 (process_events P prm sr bs q be s).2.1).1.voices).1 }
           (process_sub_block P prm sr (process_events P prm sr bs q be s).2.2.1 out bs
             (process_events P prm sr bs q be s).2.1).2).2.2.2.1,
       (process_events P prm sr bs q be s).2.2.2.2 ++
         (process_loop P prm sr N fuel (process_events P prm sr bs q be s).1
           (process_events P prm sr bs q be s).2.1
           (min ((process_events P prm sr bs q be s).2.1 + MAX_BLOCK_SIZE) N)
           { (process_sub_block P prm sr (process_events P prm sr bs q be s).2.2.1 out bs
               (process_events P prm sr bs q be s).2.1).1 with
             voices := (terminate_finished (process_events P prm sr bs q be s).2.1
               (process_sub_block P prm sr (process_events P prm sr bs q be s).2.2.1 out bs
                 (process_events P prm sr bs q be s).2.1).1.voices).1 }
           (process_sub_block P prm sr (process_events P prm sr bs q be s).2.2.1 out bs
             (process_events P prm sr bs q be s).2.1).2).2.2.2.2) := by
  simp only [process_loop]
  rw [if_pos h]

theorem process_loop_done (P : Primitives) (prm : Params) (sr : ℚ) (N : Nat)
    (fuel : Nat) (q : List NEvent) (bs be : Nat) (s : EngineState) (out : List Sample)
    (h : ¬ bs < N) :
    process_loop P prm sr N (fuel + 1) q bs be s out = (s, out, [], [], []) := by
  simp only [process_loop]
  rw [if_neg h]

theorem process_loop_blocks_bounded (P : Primitives) (prm : Params) (sr : ℚ) (N : Nat) :
    ∀ (fuel : Nat) (q : List NEvent) (bs be : Nat) (s : EngineState) (out : List Sample),
      be ≤ bs + MAX_BLOCK_SIZE → be ≤ N →
      ∀ pr ∈ (process_loop P prm sr N fuel q bs be s out).2.2.2.1,
        pr.2 ≤ pr.1 + MAX_BLOCK_SIZE ∧ pr.2 ≤ N := by
  intro fuel
  induction fuel with
  | zero => intro q bs be s out _ _ pr hpr; cases hpr
  | succ fuel ih =>
    intro q bs be s out hmax hN pr hpr
    by_cases hbs : bs < N
    · rw [process_loop_succ_lt P prm sr N fuel q bs be s out hbs] at hpr
      have hbe' := (process_events_be P prm sr bs q be s).1
      rcases List.mem_cons.mp hpr with hpr | hpr
      · subst hpr
        exact ⟨le_trans hbe' hmax, le_trans hbe' hN⟩
      · exact ih _ _ _ _ _ (min_le_left _ _) (min_le_right _ _) pr hpr
    · rw [process_loop_done P prm sr N fuel q bs be s out hbs] at hpr
      cases hpr

theorem process_loop_applied_exact (P : Primitives) (prm : Params) (sr : ℚ) (N : Nat) :
    ∀ (fuel : Nat) (q : List NEvent) (bs be : Nat) (s : EngineState) (out : List Sample),
      ∀ pr ∈ (process_loop P prm sr N fuel q bs be s out).2.2.2.2,
        pr.1.timing ≤ pr.2 ∧ pr.2 < N := by
  intro fuel
  induction fuel with
  | zero => intro q bs be s out pr hpr; cases hpr
  | succ fuel ih =>
    intro q bs be s out pr hpr
    by_cases hbs : bs < N
    · rw [process_loop_succ_lt P prm sr N fuel q bs be s out hbs] at hpr
      rcases List.mem_append.mp hpr with hpr | hpr
      · obtain ⟨h1, h2⟩ := process_events_applied P prm sr bs q be s pr hpr
        rw [h1]
        exact ⟨h2, hbs⟩
      · exact ih _ _ _ _ _ pr hpr
    · rw [process_loop_done P prm sr N fuel q bs be s out hbs] at hpr
      cases hpr

theorem process_loop_shorten_head (P : Primitives) (prm : Params) (sr : ℚ) (N : Nat)
    (fuel : Nat) (e : NEvent) (rest : List NEvent) (bs be : Nat) (s : EngineState)
    (out : List Sample)
    (hbs : bs < N) (h1 : bs < e.timing) (h2 : e.timing < be) (hN : be ≤ N) :
    (process_loop P prm sr N (fuel + 2) (e :: rest) bs be s out).2.2.2.1.head? =
      some (bs, e.timing) ∧
    (process_loop P prm sr N (fuel + 2) (e :: rest) bs be s out).2.2.2.2.head? =
      some (e, e.timing) := by
  have hpe := process_events_cons_shorten P prm sr bs e rest be s (by omega) h2
  rw [process_loop_succ_lt P prm sr N (fuel + 1) (e :: rest) bs be s out hbs]
  rw [hpe]
  have htN : e.timing < N := lt_of_lt_of_le h2 hN
  rw [process_loop_succ_lt P prm sr N fuel (e :: rest) e.timing
    (min (e.timing + MAX_BLOCK_SIZE) N) _ _ htN]
  rw [process_events_cons_apply P prm sr e.timing e rest
    (min (e.timing + MAX_BLOCK_SIZE) N) _ (le_refl _)]
  exact ⟨rfl, rfl⟩

theorem process_loop_zero_out (P : Primitives) (prm : Params) (sr : ℚ) (N : Nat)
    (hd : prm.delta = true) :
    ∀ (fuel : Nat) (q : List NEvent) (bs be : Nat) (s : EngineState) (out : List Sample),
      (∀ e ∈ q, e.isNoteOn = false) →
      (∀ ov ∈ s.voices, ov = none) →
      out.length = N →
      (bs < N → bs < be ∧ be ≤ N) →
      N - bs ≤ fuel →
      (∀ i, i < bs → out.getD i (0, 0) = (0, 0)) →
      (process_loop P prm sr N fuel q bs be s out).2.1.length = N ∧
      (∀ i, i < N →
        (process_loop P prm sr N fuel q bs be s out).2.1.getD i (0, 0) = (0, 0)) := by
  intro fuel
  induction fuel with
  | zero =>
    intro q bs be s out _ _ hlen _ hfuel hzero
    have hbs : N ≤ bs := by omega
    exact ⟨hlen, fun i hi => hzero i (by omega)⟩
  | succ fuel ih =>
    intro q bs be s out hq hf hlen hbe hfuel hzero
    by_cases hbs : bs < N
    · obtain ⟨hbe1, hbe2⟩ := hbe hbs
      rw [process_loop_succ_lt P prm sr N fuel q bs be s out hbs]
      set r1 := process_events P prm sr bs q be s with hr1
      have hbe1' : bs < r1.2.1 := (process_events_be P prm sr bs q be s).2 hbe1
      have hbe2' : r1.2.1 ≤ be := (process_events_be P prm sr bs q be s).1
      have hfree1 : ∀ ov ∈ r1.2.2.1.voices, ov = none :=
        process_events_all_free P prm sr bs q be s hq hf
      have hq1 : ∀ e ∈ r1.1, e.isNoteOn = false :=
        fun e he => hq e (process_events_queue_sub P prm sr bs q be s e he)
      obtain ⟨hsv, hslen, hsget⟩ := process_sub_block_all_free P prm sr r1.2.2.1 out bs
        r1.2.1 hfree1 hd (by omega)
      have hfree2 : ∀ ov ∈ (process_sub_block P prm sr r1.2.2.1 out bs r1.2.1).1.voices,
          ov = none := by
        rw [hsv]; exact hfree1
      have hterm := terminate_finished_all_free r1.2.1
        (process_sub_block P prm sr r1.2.2.1 out bs r1.2.1).1.voices hfree2
      have hfree3 : ∀ ov ∈ (terminate_finished r1.2.1
          (process_sub_block P prm sr r1.2.2.1 out bs r1.2.1).1.voices).1, ov = none := by
        rw [hterm]; exact hfree2
      refine ih r1.1 r1.2.1 (min (r1.2.1 + MAX_BLOCK_SIZE) N) _ _ hq1 hfree3 ?_ ?_ ?_ ?_
      · rw [hslen, hlen]
      · intro hlt
        constructor
        · exact lt_min (by simp [MAX_BLOCK_SIZE]) hlt
        · exact min_le_right _ _
      · omega
      · intro i hi
        rw [hsget i]
        by_cases hc : bs ≤ i ∧ i < r1.2.1
        · rw [if_pos hc]
        · rw [if_neg hc]
          exact hzero i (by omega)
    · rw [process_loop_done P prm sr N fuel q bs be s out hbs]
      exact ⟨hlen, fun i hi => hzero i (by omega)⟩

/-- C2: the sub-block scheduler is sample-accurate. A pending event strictly
inside the current sub-block shortens it to end exactly at the event's
timestamp, applying nothing and leaving the state and queue untouched; that
event is then applied at the start of the next sub-block, which begins exactly
at the timestamp; no event is ever applied before its timestamp (and the
pending in-block event is applied exactly at its own); and every processed
sub-block is at most `MAX_BLOCK_SIZE` samples long and ends within the buffer. -/
theorem sub_block_event_splitting (P : Primitives) (prm : Params) (sr : ℚ) (N : Nat) :
    (∀ (bs : Nat) (e : NEvent) (rest : List NEvent) (be : Nat) (s : EngineState),
       bs < e.timing → e.timing < be →
       process_events P prm sr bs (e :: rest) be s = (e :: rest, e.timing, s, [], [])) ∧
    (∀ (fuel : Nat) (e : NEvent) (rest : List NEvent) (bs be : Nat) (s : EngineState)
       (out : List Sample),
       bs < N → bs < e.timing → e.timing < be → be ≤ N →
       (process_loop P prm sr N (fuel + 2) (e :: rest) bs be s out).2.2.2.1.head? =
         some (bs, e.timing) ∧
       (process_loop P prm sr N (fuel + 2) (e :: rest) bs be s out).2.2.2.2.head? =
         some (e, e.timing)) ∧
    (∀ (fuel : Nat) (q : List NEvent) (bs be : Nat) (s : EngineState) (out : List Sample),
       be ≤ bs + MAX_BLOCK_SIZE → be ≤ N →
       ∀ pr ∈ (process_loop P prm sr N fuel q bs be s out).2.2.2.1,
         pr.2 ≤ pr.1 + MAX_BLOCK_SIZE ∧ pr.2 ≤ N) ∧
    (∀ (fuel : Nat) (q : List NEvent) (bs be : Nat) (s : EngineState) (out : List Sample),
       ∀ pr ∈ (process_loop P prm sr N fuel q bs be s out).2.2.2.2,
         pr.1.timing ≤ pr.2 ∧ pr.2 < N) :=
  ⟨fun bs e rest be s h1 h2 =>
     process_events_cons_shorten P prm sr bs e rest be s (by omega) h2,
   fun fuel e rest bs be s out hbs h1 h2 hN =>
     process_loop_shorten_head P prm sr N fuel e rest bs be s out hbs h1 h2 hN,
   process_loop_blocks_bounded P prm sr N,
   process_loop_applied_exact P prm sr N⟩

/-- A concrete 5-sample buffer and event for the scheduler witnesses. -/
def ex5 : List Sample := [(1, 1), (1, 1), (1, 1), (1, 1), (1, 1)]

/-- A concrete 4-sample buffer for the scheduler witnesses. -/
def ex4 : List Sample := [(1, 1), (1, 1), (1, 1), (1, 1)]

/-- The concrete in-buffer note-on used by the scheduler witnesses. -/
def ex_event : NEvent := NEvent.noteOn 3 none 0 60 1

set_option maxRecDepth 40000 in
/-- Evaluation witness for the sub-block scheduler: with a 5-sample buffer and
a note-on at sample 3, the first sub-block is cut to `(0, 3)`, the event is
applied exactly at 3, and the traced sub-blocks respect the bounds. -/
theorem sub_block_event_splitting_witness :
    ((0 : Nat) < ex_event.timing ∧ ex_event.timing < 5 ∧ (0 : Nat) < 5 ∧ (5 : Nat) ≤ 5 ∧
      (5 : Nat) ≤ 0 + MAX_BLOCK_SIZE ∧
      (0, 3) ∈ (process_loop P_ex prm_ex 1 5 5 [ex_event] 0 5 init_state ex5).2.2.2.1 ∧
      (ex_event, 3) ∈
        (process_loop P_ex prm_ex 1 5 5 [ex_event] 0 5 init_state ex5).2.2.2.2) ∧
    process_events P_ex prm_ex 1 0 [ex_event] 5 init_state =
      ([ex_event], ex_event.timing, init_state, [], []) ∧
    ((process_loop P_ex prm_ex 1 5 2 [ex_event] 0 5 init_state ex5).2.2.2.1.head? =
       some (0, ex_event.timing) ∧
     (process_loop P_ex prm_ex 1 5 2 [ex_event] 0 5 init_state ex5).2.2.2.2.head? =
       some (ex_event, ex_event.timing)) ∧
    ((3 : Nat) ≤ 0 + MAX_BLOCK_SIZE ∧ (3 : Nat) ≤ 5) ∧
    (ex_event.timing ≤ 3 ∧ (3 : Nat) < 5) :=
  ⟨⟨by decide, by decide, by decide, by decide, by norm_num [MAX_BLOCK_SIZE], by decide,
     by decide⟩,
   (sub_block_event_splitting P_ex prm_ex 1 5).1 0 ex_event [] 5 init_state
     (by decide) (by decide),
   (sub_block_event_splitting P_ex prm_ex 1 5).2.1 0 ex_event [] 0 5 init_state ex5
     (by decide) (by decide) (by decide) (by decide),
   (sub_block_event_splitting P_ex prm_ex 1 5).2.2.1 5 [ex_event] 0 5 init_state ex5
     (by norm_num [MAX_BLOCK_SIZE]) (by norm_num) (0, 3) (by decide),
   (sub_block_event_splitting P_ex prm_ex 1 5).2.2.2 5 [ex_event] 0 5 init_state ex5
     (ex_event, 3) (by decide)⟩

set_option maxRecDepth 40000 in
/-- C7 counterexample: in a 4-sample buffer, a note-on with timestamp 10 is
never applied — the applied-event trace stays empty and no voice is started;
the out-of-range timestamp is not clamped into the buffer. -/
theorem out_of_range_event_cex :
    (process_buffer P_ex prm_ex 1 init_state [NEvent.noteOn 10 none 0 60 1]
        ex4).2.2.2.2 = [] ∧
    occupied_count (process_buffer P_ex prm_ex 1 init_state
        [NEvent.noteOn 10 none 0 60 1] ex4).1.voices = 0 := by
  decide

/-- C7 amended: host-delivered timestamps are not clamped into the buffer's
range. An event is applied only when its timestamp is at or before the current
sub-block start, which always lies inside the buffer, so every applied event
satisfies `timing ≤ applied_at < N`; consequently an event whose timestamp is
at or beyond the buffer length is never applied during the current buffer — it
is left pending rather than clamped and applied. -/
theorem out_of_range_events_not_applied (P : Primitives) (prm : Params) (sr : ℚ)
    (s : EngineState) (q : List NEvent) (input : List Sample) :
    (∀ pr ∈ (process_buffer P prm sr s q input).2.2.2.2,
       pr.1.timing ≤ pr.2 ∧ pr.2 < input.length) ∧
    (∀ (e : NEvent) (k : Nat), input.length ≤ e.timing →
       (e, k) ∉ (process_buffer P prm sr s q input).2.2.2.2) := by
  constructor
  · exact fun pr hpr =>
      process_loop_applied_exact P prm sr input.length _ _ _ _ _ _ pr hpr
  · intro e k hle hmem
    obtain ⟨h1, h2⟩ :=
      process_loop_applied_exact P prm sr input.length _ _ _ _ _ _ (e, k) hmem
    exact absurd (lt_of_le_of_lt (le_trans hle h1) h2) (lt_irrefl _)

set_option maxRecDepth 40000 in
/-- Evaluation witness for the no-clamping behaviour: the in-range event of `ex5`
is applied at its own timestamp, inside the buffer. -/
theorem out_of_range_events_not_applied_witness :
    ((ex_event, 3) ∈ (process_buffer P_ex prm_ex 1 init_state [ex_event] ex5).2.2.2.2 ∧
      ex5.length ≤ (NEvent.noteOn 10 none 0 60 1).timing) ∧
    (ex_event.timing ≤ 3 ∧ (3 : Nat) < ex5.length) ∧
    (NEvent.noteOn 10 none 0 60 1, 0) ∉
      (process_buffer P_ex prm_ex 1 init_state [ex_event] ex5).2.2.2.2 :=
  ⟨⟨by decide, by decide⟩,
   (out_of_range_events_not_applied P_ex prm_ex 1 init_state [ex_event] ex5).1
     (ex_event, 3) (by decide),
   (out_of_range_events_not_applied P_ex prm_ex 1 init_state [ex_event] ex5).2
     (NEvent.noteOn 10 none 0 60 1) 0 (by decide)⟩

/-- C9: with delta (difference) mode enabled and no voice slot occupied for the
whole buffer — all slots empty at entry and no note-on among the buffer's
events — every output sample of both channels equals zero: the unmodified dry
signal minus itself. -/
theorem delta_mode_silent (P : Primitives) (prm : Params) (sr : ℚ) (s : EngineState)
    (q : List NEvent) (input : List Sample)
    (hd : prm.delta = true) (hf : ∀ ov ∈ s.voices, ov = none)
    (hq : ∀ e ∈ q, e.isNoteOn = false) :
    (process_buffer P prm sr s q input).2.1.length = input.length ∧
    ∀ i, i < input.length →
      (process_buffer P prm sr s q input).2.1.getD i (0, 0) = ((0 : ℚ), (0 : ℚ)) := by
  refine process_loop_zero_out P prm sr input.length hd input.length q 0
    (min MAX_BLOCK_SIZE input.length) s input hq hf rfl ?_ (by omega) ?_
  · intro h
    exact ⟨lt_min (by simp [MAX_BLOCK_SIZE]) h, min_le_right _ _⟩
  · intro i hi
    exact absurd hi (by omega)

/-- The example parameters with delta mode enabled. -/
def prm_delta : Params := { prm_ex with delta := true }

set_option maxRecDepth 40000 in
/-- Evaluation witness for delta-mode silence on a concrete 4-sample buffer with
no voices and no events. -/
theorem delta_mode_silent_witness :
    (prm_delta.delta = true ∧ (∀ ov ∈ init_state.voices, ov = none) ∧
      (∀ e ∈ ([] : List NEvent), e.isNoteOn = false)) ∧
    ((process_buffer P_ex prm_delta 1 init_state [] ex4).2.1.length = ex4.length ∧
     ∀ i, i < ex4.length →
       (process_buffer P_ex prm_delta 1 init_state [] ex4).2.1.getD i (0, 0) =
         ((0 : ℚ), (0 : ℚ))) :=
  ⟨⟨rfl, by decide, by decide⟩,
   delta_mode_silent P_ex prm_delta 1 init_state [] ex4 rfl (by decide) (by decide)⟩
